import Mathlib

/-!
# TetrisPP: the piece/field state machine of `src/Tetris/Tetris.cpp`

A shallow embedding of the game core.  A `std::wstring` is a `List Char`, a C++
`int` is an `Int` (positions and rotation indices move by one per step from small
constants, so 32-bit overflow never comes into play; the score and the piece counter
are unbounded integers, their 32-bit limit lying beyond ten million locks), loop
counters that only run over non-negative constants are `Nat`.  In `doesPieceFit` and `cementify`, whose indices
depend on the pose, a bounds-checked `.at(i)` that would throw `std::out_of_range` and an
unchecked `operator[]` outside the buffer (for which C++ defines no behaviour) are
modelled by `none`.  In the scan and shift loops of `main` the indices are fixed by the
loop bounds and lie inside a 216-cell field, so reads and writes are `List.getD` and
`List.set`, and the theorems about them assume that length.  Rendering, key polling and
timing are left out; a tick takes the sampled keys and the value of `rand()` as input.
-/

namespace Tetris

/-! ## Constants and the shape table -/

def fieldWidth : Nat := 12
def fieldHeight : Nat := 18
def fieldPixels : Nat := fieldWidth * fieldHeight
def tetrominoWidth : Nat := 4
def tetrominoHeight : Nat := 4
def tetrominoPixels : Nat := tetrominoWidth * tetrominoHeight

def emptyTetrominoPixel : Char := '.'
def concreteTetrominoPixel : Char := 'X'

/-- The seven canonical 4x4 masks, row after row, in the order of the source array. -/
def tetrominos : List (List Char) :=
  [ ("..X." ++ "..X." ++ "..X." ++ "..X.").toList,
    ("...." ++ ".X.." ++ ".XX." ++ ".X..").toList,
    ("...." ++ ".XX." ++ ".XX." ++ "....").toList,
    ("...." ++ ".X.." ++ ".XX." ++ "..X.").toList,
    ("...." ++ ".X.." ++ ".X.." ++ ".XX.").toList,
    ("...." ++ "..X." ++ ".XX." ++ ".X..").toList,
    ("...." ++ "..X." ++ "..X." ++ ".XX.").toList ]

def tetrominoChars : List Char := "ABCDEFG".toList

def borderCell : Char := '#'
def emptyCell : Char := ' '
def completedLineCell : Char := '='

inductive TetrominoType where
  | Line | Tee | Cube | LeftL | RightL | LeftS | RightS
  deriving DecidableEq, Repr

/-- The enumerator values of `enum class TetrominoType`. -/
def TetrominoType.toNat : TetrominoType → Nat
  | .Line => 0 | .Tee => 1 | .Cube => 2 | .LeftL => 3
  | .RightL => 4 | .LeftS => 5 | .RightS => 6

/-- The cast `static_cast<TetrominoType>(rand() % 7)`. -/
def TetrominoType.ofRand (n : Nat) : TetrominoType :=
  match n % 7 with
  | 0 => .Line | 1 => .Tee | 2 => .Cube | 3 => .LeftL
  | 4 => .RightL | 5 => .LeftS | _ => .RightS

structure ActiveTetromino where
  type : TetrominoType
  posX : Int
  posY : Int
  rotation : Int
  shape : List Char
  deriving DecidableEq, Repr

/-! ## Rotation engine -/

/-- The `switch` of `getShape`: where cell `(x, y)` of the canonical mask goes. -/
def rotationTarget (rotation : Int) (x y : Nat) : Nat × Nat :=
  let offsetX := tetrominoWidth - 1
  let offsetY := tetrominoHeight - 1
  if rotation = 1 then (y, offsetY - x)
  else if rotation = 2 then (offsetX - x, offsetY - y)
  else if rotation = 3 then (offsetX - y, x)
  else (x, y)

/-- The function `getShape`: the mask of a piece for its kind and rotation index. -/
def getShape (tetromino : ActiveTetromino) : List Char :=
  let rotation := tetromino.rotation
  let tetrominoDef := tetrominos.getD tetromino.type.toNat []
  if rotation = 0 then tetrominoDef
  else
    (List.range tetrominoWidth).foldl
      (fun ret x =>
        (List.range tetrominoHeight).foldl
          (fun ret y =>
            let target := rotationTarget tetromino.rotation x y
            let index := target.2 * tetrominoWidth + target.1
            ret.set index (tetrominoDef.getD (y * tetrominoWidth + x) emptyTetrominoPixel))
          ret)
      (List.replicate tetrominoPixels emptyTetrominoPixel)

/-- The function `rotate`; `%` on C++ `int` truncates towards zero, which is `Int.tmod`. -/
def rotate (tetromino : ActiveTetromino) (clockwise : Bool) : ActiveTetromino :=
  let turned : ActiveTetromino :=
    { tetromino with
      rotation := Int.tmod (tetromino.rotation + (if clockwise then 1 else -1)) 4 }
  { turned with shape := getShape turned }

/-- A piece of the given kind and rotation index carrying the mask `getShape` gives it. -/
def mkPiece (kind : TetrominoType) (posX posY rotation : Int) : ActiveTetromino :=
  let bare : ActiveTetromino :=
    { type := kind, posX := posX, posY := posY, rotation := rotation, shape := [] }
  { bare with shape := getShape bare }

/-- Cell `(x, y)` of a 4x4 mask, stored at index `y * 4 + x`. -/
def maskCell (mask : List Char) (x y : Nat) : Char :=
  mask.getD (y * tetrominoWidth + x) emptyTetrominoPixel

/-- The canonical mask of a kind, `tetrominos[static_cast<size_t>(type)]`. -/
def canonicalMask (kind : TetrominoType) : List Char :=
  tetrominos.getD kind.toNat []

/-- The mask `getShape` gives for a kind and a rotation index (it reads nothing else). -/
def shapeOf (kind : TetrominoType) (rotation : Int) : List Char :=
  getShape ⟨kind, 0, 0, rotation, []⟩

/-- The rotation index `rotate` stores. -/
def nextRotation (rotation : Int) (clockwise : Bool) : Int :=
  Int.tmod (rotation + (if clockwise then 1 else -1)) 4

/-! ## Collision tester and lock -/

/-- Bounds-checked `std::wstring::at` for an `int` index (converted to `size_t`, so a
negative index is far out of range): `none` stands for the thrown `std::out_of_range`. -/
def wstringAt (s : List Char) (i : Int) : Option Char :=
  if 0 ≤ i then s[i.toNat]? else none

/-- Unchecked `operator[]` write for an `int` index; outside the buffer C++ defines no
behaviour, which is `none`. -/
def wstringSet (s : List Char) (i : Int) (c : Char) : Option (List Char) :=
  if 0 ≤ i ∧ i.toNat < s.length then some (s.set i.toNat c) else none

/-- The index `row * fieldWidth + column` the source computes for a field cell. -/
def fieldIndex (column row : Int) : Int :=
  row * (fieldWidth : Int) + column

/-- The mask cells in the order the loops of `doesPieceFit` visit them: `i` from 0 to 3,
and for each `i`, `j` from 3 down to 0. -/
def fitOrder : List (Nat × Nat) :=
  (List.range tetrominoWidth).flatMap fun i =>
    (List.range tetrominoHeight).reverse.map fun j => (i, j)

/-- The body of the loops of `doesPieceFit` over the remaining cells: `some false` is the
early `return false`, `none` an exception thrown by `.at`. -/
def doesPieceFitFrom (tetromino : ActiveTetromino) (field : List Char) :
    List (Nat × Nat) → Option Bool
  | [] => some true
  | (i, j) :: rest =>
    match wstringAt tetromino.shape ((j * tetrominoWidth + i : Nat) : Int) with
    | none => none
    | some cell =>
      if cell = emptyTetrominoPixel then doesPieceFitFrom tetromino field rest
      else
        let fieldRow := tetromino.posY + (j : Int)
        if fieldRow < 0 then doesPieceFitFrom tetromino field rest
        else
          match wstringAt field (fieldIndex (tetromino.posX + (i : Int)) fieldRow) with
          | none => none
          | some fieldCell =>
            if fieldCell = emptyCell then doesPieceFitFrom tetromino field rest
            else some false

/-- The function `doesPieceFit`. -/
def doesPieceFit (tetromino : ActiveTetromino) (field : List Char) : Option Bool :=
  doesPieceFitFrom tetromino field fitOrder

/-- The mask cells in the order the loops of `cementify` visit them: `i` from 0 to 3,
and for each `i`, `j` from 0 to 3. -/
def cementOrder : List (Nat × Nat) :=
  (List.range tetrominoWidth).flatMap fun i =>
    (List.range tetrominoWidth).map fun j => (i, j)

/-- The letter `L"ABCDEFG"[static_cast<int>(type)]`. -/
def kindLetter (kind : TetrominoType) : Char :=
  "ABCDEFG".toList.getD kind.toNat 'A'

/-- The body of the loops of `cementify` over the remaining cells. -/
def cementifyFrom (tetromino : ActiveTetromino) :
    List (Nat × Nat) → List Char → Option (List Char)
  | [], field => some field
  | (i, j) :: rest, field =>
    let fieldX := tetromino.posX + (i : Int)
    let fieldY := tetromino.posY + (j : Int)
    match tetromino.shape[j * tetrominoWidth + i]? with
    | none => none
    | some tetrominoCell =>
      if tetrominoCell = emptyTetrominoPixel then cementifyFrom tetromino rest field
      else
        match wstringSet field (fieldIndex fieldX fieldY) (kindLetter tetromino.type) with
        | none => none
        | some written => cementifyFrom tetromino rest written

/-- The function `cementify`. -/
def cementify (tetromino : ActiveTetromino) (field : List Char) : Option (List Char) :=
  cementifyFrom tetromino cementOrder field

/-! ## The field: initial borders, completed-row scan, row shift -/

/-- Read of a field cell by `operator[]` at an index the loop bounds keep inside a
216-cell buffer. -/
def cellAt (field : List Char) (n : Nat) : Char :=
  field.getD n emptyCell

/-- The field as `main` builds it: left edge, right edge and bottom row are border. -/
def initialField : List Char :=
  (List.range fieldPixels).foldl
    (fun field i =>
      let isLeftEdge := i % fieldWidth == 0
      let isRightEdge := i % fieldWidth == fieldWidth - 1
      let isBottom := i / fieldWidth == fieldHeight - 1
      field.set i (if isLeftEdge || isRightEdge || isBottom then borderCell else emptyCell))
    (List.replicate fieldPixels emptyCell)

/-- The inner loop of the scan over `x` from 0 to 11 with its `break`: the row has no
Empty cell. -/
def rowIsComplete (field : List Char) (y : Nat) : Bool :=
  (List.range fieldWidth).all fun x => cellAt field (y * fieldWidth + x) != emptyCell

/-- The marking loop over `x` from 1 to 10. -/
def markRow (field : List Char) (y : Nat) : List Char :=
  (List.range' 1 (fieldWidth - 2)).foldl
    (fun field x => field.set (y * fieldWidth + x) completedLineCell) field

/-- One iteration of the scan loop for row `y`, on the pair (reported rows, field). -/
def scanStep (state : List Nat × List Char) (y : Nat) : List Nat × List Char :=
  if rowIsComplete state.2 y then (state.1 ++ [y], markRow state.2 y) else state

/-- The completed-row scan of `main`, rows 0 to 16: the reported indices and the field
with the completed rows marked. -/
def scanCompletedRows (field : List Char) : List Nat × List Char :=
  (List.range (fieldHeight - 1)).foldl scanStep ([], field)

/-- The innermost loop of the shift: the interior of row `y` takes row `y - 1`. -/
def copyRowDown (field : List Char) (y : Nat) : List Char :=
  (List.range' 1 (fieldWidth - 2)).foldl
    (fun field x => field.set (y * fieldWidth + x) (cellAt field ((y - 1) * fieldWidth + x)))
    field

/-- The loop `for (int y = lineIndex; y > 0; --y)` of the shift. -/
def shiftLine (field : List Char) : Nat → List Char
  | 0 => field
  | y + 1 => shiftLine (copyRowDown field (y + 1)) y

/-- The shift loop of `main` over the reported indices, in the order they were pushed. -/
def shiftRowsDown (field : List Char) (completedLinesIndexes : List Nat) : List Char :=
  completedLinesIndexes.foldl shiftLine field

/-! ## The game loop -/

/-- The sampled key states of one tick: `pressedKeys[RKey]`, `[LKey]`, `[DKey]`, `[ZKey]`. -/
structure Keys where
  right : Bool
  left : Bool
  down : Bool
  z : Bool
  deriving DecidableEq, Repr

/-- The variables of `main` that live across ticks. -/
structure Game where
  field : List Char
  currentTetromino : Option ActiveTetromino
  movementThreshold : Int
  speedCounter : Int
  placedPiecesCounter : Int
  score : Int
  isRotating : Bool
  isTranslating : Bool
  deriving DecidableEq, Repr

/-- How one pass through the body of the main loop ends. -/
inductive Outcome where
  /-- The loop goes on with these variables. -/
  | running (game : Game)
  /-- The loop was left by `break` with `gameOver` set. -/
  | gameOver (game : Game)
  /-- A call of `.at` threw `std::out_of_range`. -/
  | outOfRange
  /-- A write by `operator[]` fell outside the field buffer. -/
  | undefinedBehaviour
  deriving DecidableEq, Repr

def tetrominoEntryPointX : Int := 4
def tetrominoEntryPointY : Int := -2
def nthPieceSpeedup : Int := 10

/-- The state of `main` before the first tick. -/
def initialGame : Game :=
  { field := initialField, currentTetromino := none, movementThreshold := 20,
    speedCounter := 0, placedPiecesCounter := 0, score := 0,
    isRotating := false, isTranslating := false }

/-- The spawn: the stored piece, or a new one of kind `rand() % 7` at the entry point. -/
def spawn (current : Option ActiveTetromino) (rand : Nat) : ActiveTetromino :=
  match current with
  | some tetromino => tetromino
  | none => mkPiece (TetrominoType.ofRand rand) tetrominoEntryPointX tetrominoEntryPointY 0

/-- The rotate attempt with its rollback (the body of `if (!isRotating)`). -/
def rotateAttempt (tetromino : ActiveTetromino) (field : List Char) :
    Option ActiveTetromino :=
  let turned := rotate tetromino true
  match doesPieceFit turned field with
  | none => none
  | some true => some turned
  | some false => some (rotate turned false)

/-- One horizontal move attempt by `dx` (-1 for left, +1 for right) with its undo. -/
def moveAttempt (tetromino : ActiveTetromino) (dx : Int) (field : List Char) :
    Option ActiveTetromino :=
  let moved := { tetromino with posX := tetromino.posX + dx }
  match doesPieceFit moved field with
  | none => none
  | some true => some moved
  | some false => some { moved with posX := moved.posX - dx }

/-- The score added by a lock: `25 + (int(!empty) << size) * 100`. -/
def lockScore (completedLinesIndexes : List Nat) : Int :=
  25 + ((if completedLinesIndexes.isEmpty then 0 else 1) * 2 ^ completedLinesIndexes.length : Nat) * 100

/-- The lock branch of the descent: `cementify`, the counters, the scan, the score, and
(at the end of the tick) the row shift when some row was completed. -/
def lockPiece (game : Game) (tetromino : ActiveTetromino) : Outcome :=
  match cementify tetromino game.field with
  | none => .undefinedBehaviour
  | some cemented =>
    let placed := game.placedPiecesCounter + 1
    let threshold :=
      if Int.tmod placed nthPieceSpeedup = 0 ∧ game.movementThreshold > 2
      then game.movementThreshold - 1 else game.movementThreshold
    let scanned := scanCompletedRows cemented
    let shifted :=
      if scanned.1.length > 0 then shiftRowsDown scanned.2 scanned.1 else scanned.2
    .running
      { game with
        field := shifted, currentTetromino := none, movementThreshold := threshold,
        placedPiecesCounter := placed, score := game.score + lockScore scanned.1 }

/-- The descent part of a tick, for the local piece after the rotate and move attempts
(`game.currentTetromino` still holds the piece of the start of the tick; the local piece
is stored at the end of a tick that did not lock).  The counter `speedCounter` is
incremented only when the down key is not pressed. -/
def descend (game : Game) (tetromino : ActiveTetromino) (pushDown : Bool) : Outcome :=
  let counted := if pushDown then game.speedCounter else game.speedCounter + 1
  if pushDown ∨ counted = game.movementThreshold then
    let dropped := { tetromino with posY := tetromino.posY + 1 }
    match doesPieceFit dropped game.field with
    | none => .outOfRange
    | some true =>
      .running { game with speedCounter := 0, currentTetromino := some dropped }
    | some false =>
      let resting := { dropped with posY := dropped.posY - 1 }
      if resting.posY < 0 then .gameOver { game with speedCounter := 0 }
      else lockPiece { game with speedCounter := 0 } resting
  else
    .running { game with speedCounter := counted, currentTetromino := some tetromino }

/-- One pass through the body of the main loop, for the sampled keys and the value
`rand()` would return if a piece is spawned. -/
def tick (game : Game) (keys : Keys) (rand : Nat) : Outcome :=
  let tetromino := spawn game.currentTetromino rand
  match doesPieceFit tetromino game.field with
  | none => .outOfRange
  | some false => .gameOver { game with currentTetromino := some tetromino }
  | some true =>
    let rotated :=
      if keys.z then
        if !game.isRotating then
          (rotateAttempt tetromino game.field).map fun t => (t, true)
        else some (tetromino, false)
      else some (tetromino, game.isRotating)
    match rotated with
    | none => .outOfRange
    | some (tetromino, isRotating) =>
      let translated :=
        if xor keys.left keys.right then
          if !game.isTranslating then
            (moveAttempt tetromino (if keys.left then -1 else 1) game.field).map
              fun t => (t, true)
          else some (tetromino, false)
        else some (tetromino, game.isTranslating)
      match translated with
      | none => .outOfRange
      | some (tetromino, isTranslating) =>
        descend
          { game with
            currentTetromino := some (spawn game.currentTetromino rand),
            isRotating := isRotating, isTranslating := isTranslating }
          tetromino keys.down

/-- The loop run over a list of tick inputs; it stops at the first tick whose outcome
is not `running`. -/
def runTicks : Game → List (Keys × Nat) → Outcome
  | game, [] => .running game
  | game, (keys, rand) :: rest =>
    match tick game keys rand with
    | .running next => runTicks next rest
    | stopped => stopped

/-- The states the loop can be in at the top of an iteration. -/
inductive Reachable : Game → Prop where
  | start : Reachable initialGame
  | step (game next : Game) (keys : Keys) (rand : Nat) :
      Reachable game → tick game keys rand = .running next → Reachable next

/-! ## The parts of a tick, named -/

/-- The condition under which the tick reaches the call `rotate(tetromino)`: the Z key
is pressed and the latch `isRotating` is clear. -/
def rotateFires (game : Game) (keys : Keys) : Bool :=
  keys.z && !game.isRotating

/-- The condition under which the tick reaches a horizontal move attempt: exactly one of
left and right is pressed and the latch `isTranslating` is clear. -/
def moveFires (game : Game) (keys : Keys) : Bool :=
  xor keys.left keys.right && !game.isTranslating

/-- The block `if (pressedKeys[ZKey]) ...` of a tick: the piece and the latch
`isRotating` after it (`none` when the fit test throws). -/
def rotatePhase (game : Game) (keys : Keys) (tetromino : ActiveTetromino) :
    Option (ActiveTetromino × Bool) :=
  if keys.z then
    if !game.isRotating then
      (rotateAttempt tetromino game.field).map fun t => (t, true)
    else some (tetromino, false)
  else some (tetromino, game.isRotating)

/-- The block `if (goLeft ^ goRight) ...` of a tick: the piece and the latch
`isTranslating` after it (`none` when the fit test throws). -/
def translatePhase (game : Game) (keys : Keys) (tetromino : ActiveTetromino) :
    Option (ActiveTetromino × Bool) :=
  if xor keys.left keys.right then
    if !game.isTranslating then
      (moveAttempt tetromino (if keys.left then -1 else 1) game.field).map
        fun t => (t, true)
    else some (tetromino, false)
  else some (tetromino, game.isTranslating)

/-- The condition of `if (pushDown || ++speedCounter == movementThreshold)`. -/
def descentDue (game : Game) (keys : Keys) : Bool :=
  keys.down || decide (game.speedCounter + 1 = game.movementThreshold)

/-- The number of occupied cells of a mask. -/
def occupiedCount (mask : List Char) : Nat :=
  (mask.filter fun c => c != emptyTetrominoPixel).length

/-- The variables after a lock whose `cementify` left the field `cemented`: the counters,
the speed ramp, the scan, the score and the row shift of `lockPiece`. -/
def afterLock (game : Game) (cemented : List Char) : Game :=
  { game with
    field :=
      if (scanCompletedRows cemented).1.length > 0
      then shiftRowsDown (scanCompletedRows cemented).2 (scanCompletedRows cemented).1
      else (scanCompletedRows cemented).2,
    currentTetromino := none,
    movementThreshold :=
      if Int.tmod (game.placedPiecesCounter + 1) nthPieceSpeedup = 0 ∧
          game.movementThreshold > 2
      then game.movementThreshold - 1 else game.movementThreshold,
    placedPiecesCounter := game.placedPiecesCounter + 1,
    score := game.score + lockScore (scanCompletedRows cemented).1 }

/-! ## Border predicates -/

/-- Index `n` of the field buffer is a border cell: column 0, column 11 or row 17. -/
def isBorderIndex (n : Nat) : Bool :=
  n % fieldWidth == 0 || n % fieldWidth == fieldWidth - 1 || n / fieldWidth == fieldHeight - 1

/-- No border cell of the field is Empty. -/
def BorderNonEmpty (field : List Char) : Prop :=
  ∀ n, n < fieldPixels → isBorderIndex n = true → cellAt field n ≠ emptyCell

/-- Every border cell of the field holds the border value. -/
def BorderIntact (field : List Char) : Prop :=
  ∀ n, n < fieldPixels → isBorderIndex n = true → cellAt field n = borderCell

instance (field : List Char) : Decidable (BorderNonEmpty field) := by
  unfold BorderNonEmpty; infer_instance

instance (field : List Char) : Decidable (BorderIntact field) := by
  unfold BorderIntact; infer_instance

/-- Mask cell `(i, j)` is occupied and its field row `posY + j` is not above the top:
the cells whose field index `doesPieceFit` reads. -/
def Examined (t : ActiveTetromino) (i j : Nat) : Prop :=
  maskCell t.shape i j ≠ emptyTetrominoPixel ∧ 0 ≤ t.posY + (j : Int)

/-! ## Concrete runs and fields used in the evaluations below -/

/-- Sixteen ticks that bring a LeftL piece (`rand() % 7 = 3`) to the floor in rotation 3:
Z and Down held for six ticks (three rotations), then Down alone for ten ticks. -/
def lockOnBorderKeys : List (Keys × Nat) :=
  List.replicate 6 (⟨false, false, true, true⟩, 3) ++
    List.replicate 10 (⟨false, false, true, false⟩, 3)

/-- The empty bordered field, row by row. -/
def emptyRows : List Char :=
  (String.join (List.replicate 17 "#          #") ++ "############").toList

/-- The state after the sixteen ticks: the LeftL piece rests on the floor of the empty
field at `(4, 14)` in rotation 3. -/
def lockOnBorderBefore : Game :=
  { field := emptyRows,
    currentTetromino := some ⟨.LeftL, 4, 14, 3, ("...." ++ ".XX." ++ "XX.." ++ "....").toList⟩,
    movementThreshold := 20, speedCounter := 0, placedPiecesCounter := 0, score := 0,
    isRotating := false, isTranslating := false }

/-- The state after one more tick with Z and Down pressed. -/
def lockOnBorderAfter : Game :=
  { field :=
      (String.join (List.replicate 15 "#          #") ++ "#    D     #" ++ "#    DD    #"
        ++ "######D#####").toList,
    currentTetromino := none,
    movementThreshold := 20, speedCounter := 0, placedPiecesCounter := 1, score := 25,
    isRotating := true, isTranslating := false }

/-- A field with two marked rows under a row that holds one locked cell. -/
def twoMarkedRows : List Char :=
  (String.join (List.replicate 14 "#          #") ++ "#   A      #" ++ "#==========#"
    ++ "#==========#" ++ "############").toList

/-- A field whose row 16 is full, with one locked cell in row 15. -/
def oneFullRow : List Char :=
  (String.join (List.replicate 15 "#          #") ++ "#   A      #" ++ "#ABCDEFGABC#"
    ++ "############").toList

/-- Soft drop alone: only the down key is pressed. -/
def dropKeys : Keys := ⟨false, false, true, false⟩

/-- The Line piece of the drop run after `k` ticks, `k` from 1 to 15: still rotation 0 at
column 4, `k` rows below the entry row; nothing else has changed since the start. -/
def dropState (k : Nat) : Game :=
  { initialGame with currentTetromino := some (mkPiece .Line 4 (-2 + (k : Int)) 0) }

/-- The empty bordered field with a Line piece locked in column 6, rows 13..16. -/
def lineLockedField : List Char :=
  (String.join (List.replicate 13 "#          #")
    ++ String.join (List.replicate 4 "#     A    #") ++ "############").toList

/-- The state after the sixteenth tick of the drop run. -/
def lineLocked : Game :=
  { initialGame with field := lineLockedField, placedPiecesCounter := 1, score := 25 }

/-- The state after a tick with only Z pressed from `lockOnBorderBefore`: the rotation
to index 0 was rejected and the rollback left rotation -1 with the rotation-0 mask. -/
def rollbackStored : Game :=
  { lockOnBorderBefore with
    currentTetromino :=
      some ⟨.LeftL, 4, 14, -1, ("...." ++ ".X.." ++ ".XX." ++ "..X.").toList⟩,
    speedCounter := 1, isRotating := true }

/-- A field whose top row is full. -/
def topRowFull : List Char :=
  ("#AAAAAAAAAA#" ++ String.join (List.replicate 16 "#          #")
    ++ "############").toList

/-- Nine ticks with the left key held, the down key also on the first: a Line piece
(`rand() % 7 = 0`) goes to the left wall, one row below the entry row. -/
def leftWallKeys : List (Keys × Nat) :=
  (⟨false, true, true, false⟩, 0) :: List.replicate 8 (⟨false, true, false, false⟩, 0)

/-- The state after those nine ticks: the Line piece stands in field column 1 with its
top cell in row -1. -/
def atLeftWall : Game :=
  { initialGame with
    currentTetromino := some (mkPiece .Line (-1) (-1) 0),
    speedCounter := 8, isTranslating := true }

/-- Only the Z key is pressed. -/
def rotateKeys : Keys := ⟨false, false, false, true⟩

/-- The state after `n` ticks with Z held from the start, for a LeftL piece that has
turned `turns` times (no descent happens in the first ticks). -/
def heldRotate (n : Nat) (turns : Int) (latch : Bool) : Game :=
  { initialGame with
    currentTetromino := some (mkPiece .LeftL 4 (-2) turns),
    speedCounter := (n : Int), isRotating := latch }

/-- Only the left key is pressed. -/
def leftKeys : Keys := ⟨false, true, false, false⟩

/-- The state after `n` ticks with Left held from the start, for a LeftL piece now at
column `posX` (no descent happens in the first ticks). -/
def heldLeft (n : Nat) (posX : Int) (latch : Bool) : Game :=
  { initialGame with
    currentTetromino := some (mkPiece .LeftL posX (-2) 0),
    speedCounter := (n : Int), isTranslating := latch }

/-- Every field index computed for the pose `q`, for an occupied mask cell whose field
row is not above the top, lies in 0..215, in a column 0..11 and a row 0..17. -/
def IndexSafe (q : ActiveTetromino) : Prop :=
  ∀ i j, i < 4 → j < 4 → maskCell q.shape i j ≠ emptyTetrominoPixel →
    0 ≤ q.posY + (j : Int) →
    0 ≤ q.posX + (i : Int) ∧ q.posX + (i : Int) ≤ 11 ∧ q.posY + (j : Int) ≤ 17 ∧
    0 ≤ fieldIndex (q.posX + (i : Int)) (q.posY + (j : Int)) ∧
    fieldIndex (q.posX + (i : Int)) (q.posY + (j : Int)) < (fieldPixels : Int)

/-- The number of non-Empty cells of a field. -/
def nonEmptyCount (field : List Char) : Nat :=
  (field.filter fun c => c != emptyCell).length

/-- The occupied mask cells of a piece, in the order `cementify` visits them. -/
def occupiedCells (t : ActiveTetromino) : List (Nat × Nat) :=
  cementOrder.filter fun c => maskCell t.shape c.1 c.2 != emptyTetrominoPixel

/-- The field indices `(posY + j) * 12 + (posX + i)` of the occupied mask cells. -/
def occupiedIndices (t : ActiveTetromino) : List Int :=
  (occupiedCells t).map fun c => fieldIndex (t.posX + (c.1 : Int)) (t.posY + (c.2 : Int))

/-- The keys of a tick, written as the letters of the pressed keys: `R`, `L`, `D`, `Z`. -/
def keysOf (letters : String) : Keys :=
  ⟨letters.toList.contains 'R', letters.toList.contains 'L',
    letters.toList.contains 'D', letters.toList.contains 'Z'⟩

/-- The ticks of one piece: the keys of each tick, with the value of `rand()` that
spawns the piece. -/
def pieceTicks (rand : Nat) (letters : List String) : List (Keys × Nat) :=
  letters.map fun s => (keysOf s, rand)

/-- Twenty pieces, each with the ticks that take it from the spawn to its lock (168 ticks
in all): three towers of Line pieces in columns 1, 5 and 9, two Line pieces lying in
row 4, a RightL piece in the top right corner, and seven Line pieces standing in rows
0..3. -/
def topRowKeyTable : List (List (Keys × Nat)) :=
  [ pieceTicks 0 (List.replicate 9 "D" ++ List.replicate 4 "LD" ++ List.replicate 3 "LDZ"),
    pieceTicks 0 (List.replicate 4 "D" ++ List.replicate 4 "LD" ++ List.replicate 4 "LDZ"),
    pieceTicks 0 (List.replicate 4 "LD" ++ List.replicate 4 "LDZ"),
    pieceTicks 0 (List.replicate 14 "D" ++ List.replicate 2 "LD"),
    pieceTicks 0 (List.replicate 10 "D" ++ List.replicate 2 "LD"),
    pieceTicks 0 (List.replicate 6 "D" ++ List.replicate 2 "LD"),
    pieceTicks 0 (List.replicate 10 "D" ++ ["LD", "RD", "LD", "RD", "LD", "RD"]),
    pieceTicks 0 (List.replicate 6 "D" ++ ["LD", "RD", "LD", "RD", "LD", "RD"]),
    pieceTicks 0 (List.replicate 2 "D" ++ ["LD", "RD", "LD", "RD", "LD", "RD"]),
    pieceTicks 0 (["LD", "RD", "LD", "R", "L", "RD"]),
    pieceTicks 0 (List.replicate 4 "LD" ++ List.replicate 2 "LDZ"),
    pieceTicks 0 (List.replicate 3 "D" ++ ["LD", "RDZ", "DZ"]),
    pieceTicks 4 (["L", "R", "L", "R", "LZ", "RZ", "LZ", "RDZ"] ++ List.replicate 2 "D"),
    pieceTicks 0 (List.replicate 2 "LD" ++ List.replicate 2 "L" ++ List.replicate 3 "LZ" ++
      ["LDZ"]),
    pieceTicks 0 (List.replicate 2 "LD" ++ List.replicate 3 "LZ" ++ ["LDZ"]),
    pieceTicks 0 (List.replicate 2 "LDZ" ++ ["LZ", "LDZ"]),
    pieceTicks 0 (List.replicate 2 "LD" ++ ["L", "LD"]),
    pieceTicks 0 (["LD", "RD", "L", "RD"]),
    pieceTicks 0 (["D", "LD", "RD"]),
    pieceTicks 0 (["D"] ++ List.replicate 2 "LD") ]

/-- The ticks of piece `k` of the run. -/
def topRowPieceKeys (k : Nat) : List (Keys × Nat) :=
  topRowKeyTable.getD k []

/-- Where each of the twenty pieces is locked: its letter and its four cells as
(column, row). -/
def topRowPlaced : List (Char × List (Nat × Nat)) :=
  [ ('A', [(1, 13), (1, 14), (1, 15), (1, 16)]),
    ('A', [(1, 9), (1, 10), (1, 11), (1, 12)]),
    ('A', [(1, 5), (1, 6), (1, 7), (1, 8)]),
    ('A', [(5, 13), (5, 14), (5, 15), (5, 16)]),
    ('A', [(5, 9), (5, 10), (5, 11), (5, 12)]),
    ('A', [(5, 5), (5, 6), (5, 7), (5, 8)]),
    ('A', [(9, 13), (9, 14), (9, 15), (9, 16)]),
    ('A', [(9, 9), (9, 10), (9, 11), (9, 12)]),
    ('A', [(9, 5), (9, 6), (9, 7), (9, 8)]),
    ('A', [(9, 1), (9, 2), (9, 3), (9, 4)]),
    ('A', [(1, 4), (2, 4), (3, 4), (4, 4)]),
    ('A', [(5, 4), (6, 4), (7, 4), (8, 4)]),
    ('E', [(9, 0), (10, 0), (10, 1), (10, 2)]),
    ('A', [(1, 0), (1, 1), (1, 2), (1, 3)]),
    ('A', [(2, 0), (2, 1), (2, 2), (2, 3)]),
    ('A', [(3, 0), (3, 1), (3, 2), (3, 3)]),
    ('A', [(4, 0), (4, 1), (4, 2), (4, 3)]),
    ('A', [(8, 0), (8, 1), (8, 2), (8, 3)]),
    ('A', [(7, 0), (7, 1), (7, 2), (7, 3)]),
    ('A', [(5, 0), (5, 1), (5, 2), (5, 3)]) ]

/-- The state of the run after `k` locks: the first `k` pieces are in the field, no piece
is active, each lock has added 25 to the score, and both latches are set from the first
lock on. -/
def topRowStage (k : Nat) : Game :=
  { field :=
      (topRowPlaced.take k).foldl
        (fun field piece =>
          piece.2.foldl (fun field cell => field.set (cell.2 * fieldWidth + cell.1) piece.1)
            field)
        emptyRows,
    currentTetromino := none,
    movementThreshold := 20 - ((k / 10 : Nat) : Int), speedCounter := 0,
    placedPiecesCounter := (k : Int), score := 25 * (k : Int),
    isRotating := decide (0 < k), isTranslating := decide (0 < k) }

/-- The state after the twenty locks, written out: only column 6 is open in rows 0..3. -/
def topRowBefore : Game :=
  { field :=
      ("#AAAAA AAEE#" ++
      String.join (List.replicate 2 "#AAAAA AAAE#") ++
      "#AAAAA AAA #" ++
      "#AAAAAAAAA #" ++
      String.join (List.replicate 12 "#A   A   A #") ++
      "############").toList,
    currentTetromino := none,
    movementThreshold := 18, speedCounter := 0, placedPiecesCounter := 20, score := 500,
    isRotating := true, isTranslating := true }

/-- The state three ticks later, after a Line piece (`rand() % 7 = 0`) was dropped into
column 6 with only Down pressed: rows 0, 1 and 2 were completed and marked, and the
shift ran. -/
def topRowAfter : Game :=
  { field :=
      (String.join (List.replicate 3 "#==========#") ++
      String.join (List.replicate 2 "#AAAAAAAAA #") ++
      String.join (List.replicate 12 "#A   A   A #") ++
      "############").toList,
    currentTetromino := none,
    movementThreshold := 18, speedCounter := 0, placedPiecesCounter := 21, score := 1325,
    isRotating := true, isTranslating := true }

/-- The field of `topRowBefore` with the last Line piece locked in column 6, rows 0..3,
before the scan. -/
def topRowCemented : List Char :=
  ("#AAAAAAAAEE#" ++ String.join (List.replicate 2 "#AAAAAAAAAE#") ++ "#AAAAAAAAA #" ++
    "#AAAAAAAAA #" ++ String.join (List.replicate 12 "#A   A   A #") ++
    "############").toList

/-- Twenty-four ticks with only Down pressed after the drop of the first Line piece: two
more Line pieces (`rand() % 7 = 0`) and a RightS piece (`rand() % 7 = 6`) fall straight
down onto it. -/
def stackKeys : List (Keys × Nat) :=
  List.replicate 20 (dropKeys, 0) ++ List.replicate 4 (dropKeys, 6)

/-- The state after those ticks: column 6 is filled from row 2 down, rows 0 and 1 are
empty. -/
def stackedToTop : Game :=
  { field :=
      (String.join (List.replicate 2 "#          #") ++
      String.join (List.replicate 2 "#     G    #") ++ "#    GG    #" ++
      String.join (List.replicate 12 "#     A    #") ++ "############").toList,
    currentTetromino := none,
    movementThreshold := 20, speedCounter := 0, placedPiecesCounter := 4, score := 100,
    isRotating := false, isTranslating := false }

/-- Eighteen ticks that lay a Line piece (`rand() % 7 = 0`) flat on the floor: Z and Down
on the first tick (one rotation), Down alone for sixteen ticks, then Z alone once, which
only clears the latch. -/
def floorKeys : List (Keys × Nat) :=
  (⟨false, false, true, true⟩, 0) :: List.replicate 16 (dropKeys, 0) ++ [(rotateKeys, 0)]

/-- The state after those ticks: the Line piece lies in row 16, columns 4..7. -/
def flatOnFloor : Game :=
  { initialGame with
    currentTetromino := some (mkPiece .Line 4 15 1), speedCounter := 1 }

/-! ## Rotation: theorems -/

theorem rotation_cases (r : Int) (h0 : 0 ≤ r) (h3 : r ≤ 3) :
    r = 0 ∨ r = 1 ∨ r = 2 ∨ r = 3 := by omega

theorem getShape_eq_shapeOf (p : ActiveTetromino) :
    getShape p = shapeOf p.type p.rotation := rfl

theorem rotate_eq (p : ActiveTetromino) (c : Bool) :
    rotate p c = ⟨p.type, p.posX, p.posY, nextRotation p.rotation c,
      shapeOf p.type (nextRotation p.rotation c)⟩ := rfl

theorem mkPiece_eq (kind : TetrominoType) (posX posY rotation : Int) :
    mkPiece kind posX posY rotation
      = ⟨kind, posX, posY, rotation, shapeOf kind rotation⟩ := rfl

theorem four_turns_closed : ∀ kind : TetrominoType, ∀ r ∈ [(0 : Int), 1, 2, 3],
    nextRotation (nextRotation (nextRotation (nextRotation r true) true) true) true = r ∧
    shapeOf kind (nextRotation (nextRotation (nextRotation (nextRotation r true) true) true) true)
      = shapeOf kind r ∧
    shapeOf kind 0 = canonicalMask kind := by
  intro kind
  cases kind <;> decide

/-- C1: for every kind and every rotation index in 0..3, with the mask `getShape` gives,
four clockwise calls of `rotate` return the very same piece (same rotation index, same
mask, same position); from rotation 0 the mask is the canonical one. -/
theorem rotate_four_times_identity (p : ActiveTetromino)
    (h0 : 0 ≤ p.rotation) (h3 : p.rotation ≤ 3) (hs : p.shape = getShape p) :
    rotate (rotate (rotate (rotate p true) true) true) true = p ∧
    (p.rotation = 0 →
      (rotate (rotate (rotate (rotate p true) true) true) true).shape
        = canonicalMask p.type) := by
  obtain ⟨kind, posX, posY, rotation, shape⟩ := p
  simp only at h0 h3 hs
  rw [getShape_eq_shapeOf] at hs
  simp only at hs
  have hmem : rotation ∈ [(0 : Int), 1, 2, 3] := by
    rcases rotation_cases rotation h0 h3 with h | h | h | h <;> simp [h]
  obtain ⟨hr, hm, hc⟩ := four_turns_closed kind rotation hmem
  simp only [rotate_eq, hr, hs]
  refine ⟨trivial, fun h => ?_⟩
  rw [h]
  exact hc

theorem rotate_four_times_identity_witness :
    rotate (rotate (rotate (rotate (mkPiece .Tee 4 (-2) 1) true) true) true) true
      = mkPiece .Tee 4 (-2) 1 ∧
    ((mkPiece .Tee 4 (-2) 1).rotation = 0 →
      (rotate (rotate (rotate (rotate (mkPiece .Tee 4 (-2) 1) true) true) true) true).shape
        = canonicalMask (mkPiece .Tee 4 (-2) 1).type) :=
  rotate_four_times_identity (mkPiece .Tee 4 (-2) 1) (by decide) (by decide) rfl

theorem rollback_closed : ∀ kind : TetrominoType,
    nextRotation (nextRotation 3 true) false = -1 ∧
    shapeOf kind (nextRotation (nextRotation 3 true) false) = canonicalMask kind ∧
    ∀ r ∈ [(0 : Int), 1, 2], nextRotation (nextRotation r true) false = r := by
  intro kind
  cases kind <;> decide

/-- C2: evaluation of the rollback.  From rotation index 0, 1 or 2 a clockwise `rotate`
followed by a counter-clockwise one gives the piece back.  From index 3 the clockwise
call gives index 0 and the counter-clockwise call then stores `(0 - 1) % 4 = -1`, for
which `getShape` takes the `default` branch and copies the canonical mask: the piece ends
with rotation -1 and the rotation-0 mask, not with rotation 3 and the mask it had (the
two masks differ for the LeftL piece). -/
theorem rotate_rollback_from_three (kind : TetrominoType) (posX posY : Int) :
    rotate (rotate (mkPiece kind posX posY 0) true) false = mkPiece kind posX posY 0 ∧
    rotate (rotate (mkPiece kind posX posY 1) true) false = mkPiece kind posX posY 1 ∧
    rotate (rotate (mkPiece kind posX posY 2) true) false = mkPiece kind posX posY 2 ∧
    (rotate (rotate (mkPiece kind posX posY 3) true) false).rotation = -1 ∧
    (rotate (rotate (mkPiece kind posX posY 3) true) false).shape = canonicalMask kind ∧
    (rotate (rotate (mkPiece .LeftL posX posY 3) true) false).shape
      ≠ (mkPiece .LeftL posX posY 3).shape := by
  obtain ⟨h1, h2, h3⟩ := rollback_closed kind
  simp only [mkPiece_eq, rotate_eq]
  refine ⟨?_, ?_, ?_, h1, h2, ?_⟩
  · rw [h3 0 (by decide)]
  · rw [h3 1 (by decide)]
  · rw [h3 2 (by decide)]
  · decide

/-- C3: evaluation of `rotate` at the ends of the index range.  Clockwise from 3 gives 0,
but counter-clockwise from 0 gives `(0 - 1) % 4 = -1` under truncating remainder, which is
outside 0..3. -/
theorem rotate_counterclockwise_from_zero (kind : TetrominoType) (posX posY : Int) :
    (rotate (mkPiece kind posX posY 3) true).rotation = 0 ∧
    (rotate (mkPiece kind posX posY 0) false).rotation = -1 ∧
    ¬ (0 ≤ (rotate (mkPiece kind posX posY 0) false).rotation) := by
  simp only [mkPiece_eq, rotate_eq]
  decide

theorem transform_table_closed : ∀ kind : TetrominoType,
    shapeOf kind 0 = canonicalMask kind ∧
    ∀ x ∈ List.range 4, ∀ y ∈ List.range 4,
      maskCell (shapeOf kind 1) y (3 - x) = maskCell (canonicalMask kind) x y ∧
      maskCell (shapeOf kind 2) (3 - x) (3 - y) = maskCell (canonicalMask kind) x y ∧
      maskCell (shapeOf kind 3) (3 - y) x = maskCell (canonicalMask kind) x y := by
  intro kind
  cases kind <;> decide!

/-- C4: `getShape` implements the transform table.  At rotation 0 it returns the canonical
mask; at rotation 1, 2, 3 the cell of the result at `(y, 3-x)`, `(3-x, 3-y)`, `(3-y, x)`
is the canonical cell at `(x, y)`, for all `x, y` in 0..3. -/
theorem getShape_transform_table (kind : TetrominoType) (posX posY : Int)
    (shape : List Char) (x y : Fin 4) :
    getShape ⟨kind, posX, posY, 0, shape⟩ = canonicalMask kind ∧
    maskCell (getShape ⟨kind, posX, posY, 1, shape⟩) y.val (3 - x.val)
      = maskCell (canonicalMask kind) x.val y.val ∧
    maskCell (getShape ⟨kind, posX, posY, 2, shape⟩) (3 - x.val) (3 - y.val)
      = maskCell (canonicalMask kind) x.val y.val ∧
    maskCell (getShape ⟨kind, posX, posY, 3, shape⟩) (3 - y.val) x.val
      = maskCell (canonicalMask kind) x.val y.val := by
  simp only [getShape_eq_shapeOf]
  exact ⟨(transform_table_closed kind).1,
    (transform_table_closed kind).2 x.val (List.mem_range.2 x.isLt)
      y.val (List.mem_range.2 y.isLt)⟩

/-! ## Buffer lemmas -/

theorem cellAt_set (f : List Char) (i n : Nat) (c : Char) :
    cellAt (f.set i c) n = if n = i ∧ i < f.length then c else cellAt f n := by
  unfold cellAt
  simp only [List.getD_eq_getElem?_getD, List.getElem?_set]
  by_cases h : i = n
  · subst h
    by_cases hl : i < f.length
    · simp [hl]
    · simp [hl, List.getElem?_eq_none (Nat.le_of_not_lt hl)]
  · have h2 : ¬ n = i := fun e => h e.symm
    simp [h, h2]

theorem length_foldl_set (xs : List Nat) (wr : Nat → Nat) (val : List Char → Nat → Char) :
    ∀ f : List Char, (xs.foldl (fun g x => g.set (wr x) (val g x)) f).length = f.length := by
  induction xs with
  | nil => intro f; rfl
  | cons a rest ih => intro f; simp only [List.foldl_cons]; rw [ih]; simp

theorem cellAt_foldl_set_frame (xs : List Nat) (wr : Nat → Nat)
    (val : List Char → Nat → Char) (n : Nat) :
    ∀ f : List Char, (∀ x ∈ xs, wr x ≠ n) →
      cellAt (xs.foldl (fun g x => g.set (wr x) (val g x)) f) n = cellAt f n := by
  induction xs with
  | nil => intro f _; rfl
  | cons a rest ih =>
    intro f h
    simp only [List.foldl_cons]
    rw [ih _ (fun x hx => h x (List.mem_cons_of_mem _ hx)), cellAt_set]
    have : ¬ n = wr a := fun e => h a (List.mem_cons_self _ _) e.symm
    simp [this]

theorem cellAt_foldl_set_const (xs : List Nat) (wr : Nat → Nat) (c : Char) (n : Nat) :
    ∀ f : List Char, (∃ x ∈ xs, wr x = n) → n < f.length →
      cellAt (xs.foldl (fun g x => g.set (wr x) c) f) n = c := by
  induction xs with
  | nil => intro f h; simp at h
  | cons a rest ih =>
    intro f h hn
    simp only [List.foldl_cons]
    by_cases hr : ∃ x ∈ rest, wr x = n
    · exact ih _ hr (by simpa using hn)
    · have ha : wr a = n := by
        obtain ⟨x, hx, hxn⟩ := h
        rcases List.mem_cons.1 hx with e | e
        · rw [← e]; exact hxn
        · exact absurd ⟨x, e, hxn⟩ hr
      have hfr := cellAt_foldl_set_frame rest wr (fun _ _ => c) n (f.set (wr a) c)
        (fun x hx e => hr ⟨x, hx, e⟩)
      rw [hfr, cellAt_set]
      simp [ha, hn]

theorem cellAt_foldl_set_copy (xs : List Nat) (wr rd : Nat → Nat)
    (hsep : ∀ x ∈ xs, ∀ z ∈ xs, rd x ≠ wr z)
    (hinj : ∀ x ∈ xs, ∀ z ∈ xs, wr x = wr z → x = z) (x : Nat) (hx : x ∈ xs) :
    ∀ f : List Char, wr x < f.length →
      cellAt (xs.foldl (fun g z => g.set (wr z) (cellAt g (rd z))) f) (wr x)
        = cellAt f (rd x) := by
  induction xs with
  | nil => simp at hx
  | cons a rest ih =>
    intro f hw
    simp only [List.foldl_cons]
    have hsepa : ¬ rd x = wr a := hsep x hx a (List.mem_cons_self _ _)
    by_cases hr : x ∈ rest
    · rw [ih (fun u hu v hv => hsep u (List.mem_cons_of_mem _ hu) v (List.mem_cons_of_mem _ hv))
        (fun u hu v hv => hinj u (List.mem_cons_of_mem _ hu) v (List.mem_cons_of_mem _ hv))
        hr _ (by simpa using hw), cellAt_set]
      simp [hsepa]
    · have hxa : x = a := by
        rcases List.mem_cons.1 hx with e | e
        · exact e
        · exact absurd e hr
      subst hxa
      have hfr := cellAt_foldl_set_frame rest wr (fun g z => cellAt g (rd z)) (wr x)
        (f.set (wr x) (cellAt f (rd x)))
        (fun z hz e => hr (by
          have := hinj z (List.mem_cons_of_mem _ hz) x (List.mem_cons_self _ _) e
          rw [← this]; exact hz))
      rw [hfr, cellAt_set]
      simp [hw]

/-! ## Row marking and row copying, cell by cell -/

theorem length_markRow (f : List Char) (y : Nat) : (markRow f y).length = f.length :=
  length_foldl_set _ (fun x => y * fieldWidth + x) (fun _ _ => completedLineCell) f

theorem cellAt_markRow (f : List Char) (y n : Nat) (hlen : y * 12 + 10 < f.length) :
    cellAt (markRow f y) n
      = if y * 12 + 1 ≤ n ∧ n ≤ y * 12 + 10 then completedLineCell else cellAt f n := by
  unfold markRow
  by_cases h : y * 12 + 1 ≤ n ∧ n ≤ y * 12 + 10
  · rw [if_pos h]
    apply cellAt_foldl_set_const
    · refine ⟨n - y * 12, ?_, ?_⟩
      · simp only [fieldWidth, List.mem_range'_1]; omega
      · simp only [fieldWidth]; omega
    · omega
  · rw [if_neg h]
    apply cellAt_foldl_set_frame _ (fun x => y * fieldWidth + x) (fun _ _ => completedLineCell)
    intro x hx
    simp only [fieldWidth, List.mem_range'_1] at hx ⊢
    omega

theorem length_copyRowDown (f : List Char) (y : Nat) :
    (copyRowDown f y).length = f.length :=
  length_foldl_set _ (fun x => y * fieldWidth + x)
    (fun g x => cellAt g ((y - 1) * fieldWidth + x)) f

theorem cellAt_copyRowDown (f : List Char) (y n : Nat) (hy : 1 ≤ y)
    (hlen : y * 12 + 10 < f.length) :
    cellAt (copyRowDown f y) n
      = if y * 12 + 1 ≤ n ∧ n ≤ y * 12 + 10 then cellAt f (n - 12) else cellAt f n := by
  unfold copyRowDown
  by_cases h : y * 12 + 1 ≤ n ∧ n ≤ y * 12 + 10
  · rw [if_pos h]
    have hx : n - y * 12 ∈ List.range' 1 (fieldWidth - 2) := by
      simp only [fieldWidth, List.mem_range'_1]; omega
    have key := cellAt_foldl_set_copy (List.range' 1 (fieldWidth - 2))
      (fun x => y * fieldWidth + x) (fun x => (y - 1) * fieldWidth + x)
      (by
        intro u hu v hv
        simp only [fieldWidth, List.mem_range'_1] at hu hv ⊢
        omega)
      (by
        intro u _ v _ e
        simp only [fieldWidth] at e
        omega)
      (n - y * 12) hx f (by simp only [fieldWidth]; omega)
    have e1 : y * fieldWidth + (n - y * 12) = n := by simp only [fieldWidth]; omega
    have e2 : (y - 1) * fieldWidth + (n - y * 12) = n - 12 := by
      simp only [fieldWidth]; omega
    simp only [e1, e2] at key
    exact key
  · rw [if_neg h]
    apply cellAt_foldl_set_frame _ (fun x => y * fieldWidth + x)
      (fun g x => cellAt g ((y - 1) * fieldWidth + x))
    intro x hx
    simp only [fieldWidth, List.mem_range'_1] at hx ⊢
    omega

theorem length_shiftLine (r : Nat) : ∀ f : List Char, (shiftLine f r).length = f.length := by
  induction r with
  | zero => intro f; rfl
  | succ k ih => intro f; simp only [shiftLine]; rw [ih, length_copyRowDown]

/-- After the loop for one completed row `r`, the interior of every row `1..r` holds what
the row above held, and nothing else changed. -/
theorem cellAt_shiftLine (r : Nat) : ∀ (f : List Char) (n : Nat), r * 12 + 10 < f.length →
    cellAt (shiftLine f r) n
      = if 12 ≤ n ∧ n ≤ r * 12 + 10 ∧ 1 ≤ n % 12 ∧ n % 12 ≤ 10
        then cellAt f (n - 12) else cellAt f n := by
  induction r with
  | zero =>
    intro f n _
    have : ¬ (12 ≤ n ∧ n ≤ 0 * 12 + 10 ∧ 1 ≤ n % 12 ∧ n % 12 ≤ 10) := by omega
    simp only [shiftLine, if_neg this]
  | succ k ih =>
    intro f n hlen
    simp only [shiftLine]
    rw [ih _ _ (by rw [length_copyRowDown]; omega)]
    rw [cellAt_copyRowDown f (k + 1) n (by omega) (by omega),
      cellAt_copyRowDown f (k + 1) (n - 12) (by omega) (by omega)]
    by_cases h1 : 12 ≤ n ∧ n ≤ k * 12 + 10 ∧ 1 ≤ n % 12 ∧ n % 12 ≤ 10
    · have h2 : ¬ ((k + 1) * 12 + 1 ≤ n - 12 ∧ n - 12 ≤ (k + 1) * 12 + 10) := by omega
      have h3 : 12 ≤ n ∧ n ≤ (k + 1) * 12 + 10 ∧ 1 ≤ n % 12 ∧ n % 12 ≤ 10 := by omega
      rw [if_pos h1, if_neg h2, if_pos h3]
    · rw [if_neg h1]
      by_cases h4 : (k + 1) * 12 + 1 ≤ n ∧ n ≤ (k + 1) * 12 + 10
      · have h3 : 12 ≤ n ∧ n ≤ (k + 1) * 12 + 10 ∧ 1 ≤ n % 12 ∧ n % 12 ≤ 10 := by omega
        rw [if_pos h4, if_pos h3]
      · have h3 : ¬ (12 ≤ n ∧ n ≤ (k + 1) * 12 + 10 ∧ 1 ≤ n % 12 ∧ n % 12 ≤ 10) := by omega
        rw [if_neg h4, if_neg h3]

/-! ## The row shift -/

theorem length_shiftRowsDown (rs : List Nat) :
    ∀ f : List Char, (shiftRowsDown f rs).length = f.length := by
  induction rs with
  | nil => intro f; rfl
  | cons r rest ih =>
    intro f
    simp only [shiftRowsDown, List.foldl_cons] at ih ⊢
    rw [ih, length_shiftLine]

theorem shiftRowsDown_cons (f : List Char) (r : Nat) (rest : List Nat) :
    shiftRowsDown f (r :: rest) = shiftRowsDown (shiftLine f r) rest := rfl

/-- Cells the shift never touches: border columns, the border row, and anything below
every listed row. -/
theorem cellAt_shiftRowsDown_frame (rs : List Nat) (n : Nat)
    (hn : n % 12 = 0 ∨ n % 12 = 11 ∨ ∀ r ∈ rs, r * 12 + 10 < n) :
    ∀ f : List Char, f.length = 216 → (∀ r ∈ rs, r < 17) →
      cellAt (shiftRowsDown f rs) n = cellAt f n := by
  induction rs with
  | nil => intro f _ _; rfl
  | cons r rest ih =>
    intro f hlen hr
    have hr17 : r < 17 := hr r (List.mem_cons_self _ _)
    rw [shiftRowsDown_cons, ih (by
        rcases hn with h | h | h
        · exact Or.inl h
        · exact Or.inr (Or.inl h)
        · exact Or.inr (Or.inr (fun q hq => h q (List.mem_cons_of_mem _ hq))))
      _ (by rw [length_shiftLine]; exact hlen) (fun q hq => hr q (List.mem_cons_of_mem _ hq)),
      cellAt_shiftLine r f n (by omega)]
    have : ¬ (12 ≤ n ∧ n ≤ r * 12 + 10 ∧ 1 ≤ n % 12 ∧ n % 12 ≤ 10) := by
      rcases hn with h | h | h
      · omega
      · omega
      · have := h r (List.mem_cons_self _ _)
        omega
    rw [if_neg this]

/-- A row above all the listed rows goes down by one per listed row. -/
theorem cellAt_shiftRowsDown_above (rs : List Nat) (x : Nat) (hx1 : 1 ≤ x) (hx10 : x ≤ 10) :
    ∀ (f : List Char) (p : Nat), f.length = 216 → rs.Pairwise (fun a b => a < b) →
      (∀ r ∈ rs, p < r) → (∀ r ∈ rs, r < 17) →
      cellAt (shiftRowsDown f rs) ((p + rs.length) * 12 + x) = cellAt f (p * 12 + x) := by
  induction rs with
  | nil => intro f p _ _ _ _; rfl
  | cons r rest ih =>
    intro f p hlen hs hp hr
    have hr17 : r < 17 := hr r (List.mem_cons_self _ _)
    have hpr : p < r := hp r (List.mem_cons_self _ _)
    rw [List.pairwise_cons] at hs
    have step := ih (shiftLine f r) (p + 1) (by rw [length_shiftLine]; exact hlen) hs.2
      (fun q hq => by
        have h1 := hs.1 q hq
        omega)
      (fun q hq => hr q (List.mem_cons_of_mem _ hq))
    have e : (p + (r :: rest).length) * 12 + x = (p + 1 + rest.length) * 12 + x := by
      simp only [List.length_cons]; omega
    rw [shiftRowsDown_cons, e, step, cellAt_shiftLine r f _ (by omega)]
    have hc : 12 ≤ (p + 1) * 12 + x ∧ (p + 1) * 12 + x ≤ r * 12 + 10 ∧
        1 ≤ ((p + 1) * 12 + x) % 12 ∧ ((p + 1) * 12 + x) % 12 ≤ 10 := by omega
    rw [if_pos hc]
    congr 1
    omega

/-- A row that is not listed goes down by the number of listed rows beneath it. -/
theorem cellAt_shiftRowsDown_row (rs : List Nat) (i x : Nat) (hi : i ∉ rs)
    (hx1 : 1 ≤ x) (hx10 : x ≤ 10) :
    ∀ f : List Char, f.length = 216 → rs.Pairwise (fun a b => a < b) →
      (∀ r ∈ rs, r < 17) →
      cellAt (shiftRowsDown f rs) ((i + (rs.filter (fun r => i < r)).length) * 12 + x)
        = cellAt f (i * 12 + x) := by
  induction rs with
  | nil => intro f _ _ _; rfl
  | cons r rest ih =>
    intro f hlen hs hr
    have hr17 : r < 17 := hr r (List.mem_cons_self _ _)
    have hne : i ≠ r := fun e => hi (e ▸ List.mem_cons_self _ _)
    by_cases hlt : i < r
    · have hall : ∀ q ∈ r :: rest, i < q := by
        intro q hq
        rcases List.mem_cons.1 hq with e | e
        · rw [e]; exact hlt
        · have := (List.pairwise_cons.1 hs).1 q e
          omega
      have hf : (r :: rest).filter (fun q => i < q) = r :: rest :=
        List.filter_eq_self.2 (fun q hq => by simpa using hall q hq)
      rw [hf]
      exact cellAt_shiftRowsDown_above (r :: rest) x hx1 hx10 f i hlen hs hall hr
    · have hf : (r :: rest).filter (fun q => i < q) = rest.filter (fun q => i < q) := by
        simp [List.filter_cons, hlt]
      rw [hf, shiftRowsDown_cons,
        ih (fun h => hi (List.mem_cons_of_mem _ h)) _ (by rw [length_shiftLine]; exact hlen)
          (List.pairwise_cons.1 hs).2 (fun q hq => hr q (List.mem_cons_of_mem _ hq)),
        cellAt_shiftLine r f _ (by omega)]
      have : ¬ (12 ≤ i * 12 + x ∧ i * 12 + x ≤ r * 12 + 10 ∧
          1 ≤ (i * 12 + x) % 12 ∧ (i * 12 + x) % 12 ≤ 10) := by omega
      rw [if_neg this]

/-- C10: the row shift.  For every field of 216 cells and every strictly ascending list
of row indices below the border row (the form in which the scan reports completed rows):
the interior of every row above the topmost listed row is found `k` rows lower, `k` the
number of listed rows; the interior of every row that is not listed is found lower by
the number of listed rows beneath it (none for a row below all of them); and every
border cell (columns 0 and 11, row 17) keeps its value. -/
theorem shiftRowsDown_moves_rows (field : List Char) (rs : List Nat)
    (hlen : field.length = fieldPixels) (hsorted : rs.Pairwise (fun a b => a < b))
    (hrange : ∀ r ∈ rs, r < fieldHeight - 1) :
    (shiftRowsDown field rs).length = fieldPixels ∧
    (∀ i x, (∀ r ∈ rs, i < r) → 1 ≤ x → x ≤ 10 →
      cellAt (shiftRowsDown field rs) ((i + rs.length) * fieldWidth + x)
        = cellAt field (i * fieldWidth + x)) ∧
    (∀ i x, i ∉ rs → 1 ≤ x → x ≤ 10 →
      cellAt (shiftRowsDown field rs)
          ((i + (rs.filter (fun r => i < r)).length) * fieldWidth + x)
        = cellAt field (i * fieldWidth + x)) ∧
    (∀ n, n % fieldWidth = 0 ∨ n % fieldWidth = fieldWidth - 1 ∨
        n / fieldWidth = fieldHeight - 1 →
      cellAt (shiftRowsDown field rs) n = cellAt field n) := by
  have hlen216 : field.length = 216 := hlen
  have hr17 : ∀ r ∈ rs, r < 17 := hrange
  refine ⟨by rw [length_shiftRowsDown]; exact hlen, ?_, ?_, ?_⟩
  · intro i x hi hx1 hx10
    exact cellAt_shiftRowsDown_above rs x hx1 hx10 field i hlen216 hsorted hi hr17
  · intro i x hi hx1 hx10
    exact cellAt_shiftRowsDown_row rs i x hi hx1 hx10 field hlen216 hsorted hr17
  · intro n hn
    apply cellAt_shiftRowsDown_frame rs n _ field hlen216 hr17
    simp only [fieldWidth, fieldHeight] at hn
    rcases hn with h | h | h
    · exact Or.inl h
    · exact Or.inr (Or.inl h)
    · refine Or.inr (Or.inr (fun r hr => ?_))
      have := hr17 r hr
      omega

/-! ## The completed-row scan -/

theorem cellAt_markRow_frame (f : List Char) (y n : Nat)
    (h : ¬ (y * 12 + 1 ≤ n ∧ n ≤ y * 12 + 10)) : cellAt (markRow f y) n = cellAt f n := by
  unfold markRow
  apply cellAt_foldl_set_frame _ (fun x => y * fieldWidth + x) (fun _ _ => completedLineCell)
  intro x hx
  simp only [fieldWidth, List.mem_range'_1] at hx ⊢
  omega

theorem rowIsComplete_iff (f : List Char) (y : Nat) :
    rowIsComplete f y = true ↔ ∀ x, x < 12 → cellAt f (y * 12 + x) ≠ emptyCell := by
  unfold rowIsComplete
  simp only [List.all_eq_true, List.mem_range, fieldWidth, bne_iff_ne]

theorem rowIsComplete_markRow_ne (f : List Char) (y z : Nat) (h : z ≠ y) :
    rowIsComplete (markRow f y) z = rowIsComplete f z := by
  rw [Bool.eq_iff_iff, rowIsComplete_iff, rowIsComplete_iff]
  have e : ∀ x, x < 12 → cellAt (markRow f y) (z * 12 + x) = cellAt f (z * 12 + x) := by
    intro x hx
    apply cellAt_markRow_frame
    omega
  constructor
  · intro k x hx
    rw [← e x hx]; exact k x hx
  · intro k x hx
    rw [e x hx]; exact k x hx

/-- The scan reports exactly the rows that were complete before it started, in the order
of the loop, and marks them one after the other. -/
theorem foldl_scanStep (ys : List Nat) (hnd : ys.Nodup) :
    ∀ (acc : List Nat) (f : List Char),
      ys.foldl scanStep (acc, f)
        = (acc ++ ys.filter (rowIsComplete f),
            (ys.filter (rowIsComplete f)).foldl markRow f) := by
  induction ys with
  | nil => intro acc f; simp
  | cons y rest ih =>
    intro acc f
    rw [List.nodup_cons] at hnd
    simp only [List.foldl_cons]
    by_cases hc : rowIsComplete f y = true
    · have hstep : scanStep (acc, f) y = (acc ++ [y], markRow f y) := by
        simp [scanStep, hc]
      have hfilter : rest.filter (rowIsComplete (markRow f y))
          = rest.filter (rowIsComplete f) := by
        apply List.filter_congr
        intro z hz
        exact rowIsComplete_markRow_ne f y z (fun e => hnd.1 (e ▸ hz))
      rw [hstep, ih hnd.2, hfilter, List.filter_cons_of_pos hc]
      simp
    · have hstep : scanStep (acc, f) y = (acc, f) := by
        simp [scanStep, hc]
      rw [hstep, ih hnd.2, List.filter_cons_of_neg hc]

theorem scanCompletedRows_eq (f : List Char) :
    scanCompletedRows f
      = ((List.range 17).filter (rowIsComplete f),
          ((List.range 17).filter (rowIsComplete f)).foldl markRow f) := by
  unfold scanCompletedRows
  rw [foldl_scanStep _ (List.nodup_range _)]
  rfl

theorem length_foldl_markRow (rows : List Nat) :
    ∀ f : List Char, (rows.foldl markRow f).length = f.length := by
  induction rows with
  | nil => intro f; rfl
  | cons y rest ih => intro f; simp only [List.foldl_cons]; rw [ih, length_markRow]

theorem cellAt_foldl_markRow (rows : List Nat) (n : Nat) :
    ∀ f : List Char, f.length = 216 → (∀ y ∈ rows, y < 17) →
      cellAt (rows.foldl markRow f) n
        = if ∃ y ∈ rows, y * 12 + 1 ≤ n ∧ n ≤ y * 12 + 10
          then completedLineCell else cellAt f n := by
  induction rows with
  | nil => intro f _ _; simp
  | cons y rest ih =>
    intro f hlen hr
    have hy : y < 17 := hr y (List.mem_cons_self _ _)
    simp only [List.foldl_cons]
    rw [ih _ (by rw [length_markRow]; exact hlen) (fun z hz => hr z (List.mem_cons_of_mem _ hz)),
      cellAt_markRow f y n (by omega)]
    by_cases h1 : ∃ z ∈ rest, z * 12 + 1 ≤ n ∧ n ≤ z * 12 + 10
    · have h2 : ∃ z ∈ y :: rest, z * 12 + 1 ≤ n ∧ n ≤ z * 12 + 10 := by
        obtain ⟨z, hz, hzn⟩ := h1
        exact ⟨z, List.mem_cons_of_mem _ hz, hzn⟩
      rw [if_pos h1, if_pos h2]
    · rw [if_neg h1]
      by_cases h3 : y * 12 + 1 ≤ n ∧ n ≤ y * 12 + 10
      · rw [if_pos h3, if_pos ⟨y, List.mem_cons_self _ _, h3⟩]
      · have h4 : ¬ ∃ z ∈ y :: rest, z * 12 + 1 ≤ n ∧ n ≤ z * 12 + 10 := by
          rintro ⟨z, hz, hzn⟩
          rcases List.mem_cons.1 hz with e | e
          · exact h3 (e ▸ hzn)
          · exact h1 ⟨z, e, hzn⟩
        rw [if_neg h3, if_neg h4]

/-- C9: the completed-row scan.  For every field of 216 cells whose border cells are
non-Empty: row `y` is reported iff `y <= 16` and every interior cell (columns 1..10) of row
`y` was non-Empty before the scan; the reported indices are strictly ascending; the
interior cells of exactly the reported rows become `=`, and every other cell (border
columns, border row, rows not reported) keeps its value. -/
theorem scanCompletedRows_reports_full_rows (field : List Char)
    (hlen : field.length = fieldPixels) (hborder : BorderNonEmpty field) :
    (∀ y, y ∈ (scanCompletedRows field).1 ↔
      y ≤ 16 ∧ ∀ x, 1 ≤ x → x ≤ 10 → cellAt field (y * fieldWidth + x) ≠ emptyCell) ∧
    (scanCompletedRows field).1.Pairwise (fun a b => a < b) ∧
    (scanCompletedRows field).2.length = fieldPixels ∧
    (∀ y x, x < fieldWidth →
      cellAt (scanCompletedRows field).2 (y * fieldWidth + x)
        = if y ∈ (scanCompletedRows field).1 ∧ 1 ≤ x ∧ x ≤ 10
          then completedLineCell else cellAt field (y * fieldWidth + x)) := by
  have hlen216 : field.length = 216 := hlen
  have hmem : ∀ y, y ∈ (scanCompletedRows field).1 ↔
      y ≤ 16 ∧ ∀ x, 1 ≤ x → x ≤ 10 → cellAt field (y * 12 + x) ≠ emptyCell := by
    intro y
    rw [scanCompletedRows_eq]
    simp only [List.mem_filter, List.mem_range, rowIsComplete_iff]
    constructor
    · rintro ⟨hy, hall⟩
      exact ⟨by omega, fun x _ hx => hall x (by omega)⟩
    · rintro ⟨hy, hall⟩
      refine ⟨by omega, fun x hx => ?_⟩
      by_cases h1 : 1 ≤ x ∧ x ≤ 10
      · exact hall x h1.1 h1.2
      · apply hborder (y * 12 + x) (by simp only [fieldPixels, fieldWidth, fieldHeight]; omega)
        have hx0 : x = 0 ∨ x = 11 := by omega
        simp only [isBorderIndex, fieldWidth, fieldHeight, Bool.or_eq_true, beq_iff_eq]
        rcases hx0 with e | e
        · left; left; omega
        · left; right; omega
  refine ⟨hmem, ?_, ?_, ?_⟩
  · rw [scanCompletedRows_eq]
    exact (List.pairwise_lt_range 17).filter _
  · rw [scanCompletedRows_eq]
    simp only
    rw [length_foldl_markRow]
    exact hlen
  · intro y x hx
    have hx12 : x < 12 := hx
    have hrows : ∀ z ∈ (scanCompletedRows field).1, z < 17 := by
      intro z hz
      have := ((hmem z).1 hz).1
      omega
    have hcell := cellAt_foldl_markRow (scanCompletedRows field).1 (y * 12 + x) field
      hlen216 hrows
    have hsnd : (scanCompletedRows field).2
        = (scanCompletedRows field).1.foldl markRow field := by
      rw [scanCompletedRows_eq]
    rw [hsnd]
    have e12 : fieldWidth = 12 := rfl
    rw [e12, hcell]
    by_cases hin : y ∈ (scanCompletedRows field).1 ∧ 1 ≤ x ∧ x ≤ 10
    · rw [if_pos hin, if_pos ⟨y, hin.1, by omega, by omega⟩]
    · rw [if_neg hin, if_neg]
      rintro ⟨z, hz, hz1, hz2⟩
      apply hin
      have hzy : z = y := by omega
      subst hzy
      exact ⟨hz, by omega, by omega⟩

/-! ## The collision tester -/

theorem wstringAt_natCast (s : List Char) (k : Nat) : wstringAt s (k : Int) = s[k]? := by
  simp [wstringAt]

theorem getElem?_eq_some_cellAt (f : List Char) (k : Nat) (h : k < f.length) :
    f[k]? = some (cellAt f k) := by
  simp [cellAt, List.getElem?_eq_getElem h]

theorem getElem?_eq_some_maskCell (shape : List Char) (i j : Nat)
    (h : j * 4 + i < shape.length) : shape[j * 4 + i]? = some (maskCell shape i j) := by
  simp [maskCell, tetrominoWidth, List.getElem?_eq_getElem h]

theorem wstringAt_inRange (f : List Char) (k : Int) (h0 : 0 ≤ k) (h1 : k < f.length) :
    wstringAt f k = some (cellAt f k.toNat) := by
  have hk : k.toNat < f.length := by omega
  simp [wstringAt, h0, getElem?_eq_some_cellAt f _ hk]

theorem wstringAt_eq_some (f : List Char) (k : Int) (c : Char) (h : wstringAt f k = some c) :
    0 ≤ k ∧ k < f.length ∧ cellAt f k.toNat = c := by
  unfold wstringAt at h
  by_cases h0 : 0 ≤ k
  · rw [if_pos h0] at h
    obtain ⟨hlt, hc⟩ := List.getElem?_eq_some.1 h
    refine ⟨h0, by omega, ?_⟩
    simp [cellAt, List.getElem?_eq_getElem hlt, hc]
  · rw [if_neg h0] at h
    exact absurd h (by simp)

/-- The loop returns `true` only if every examined cell was read inside the buffer and
found Empty; no assumption on the pose. -/
theorem doesPieceFitFrom_true (t : ActiveTetromino) (field : List Char)
    (hshape : 16 ≤ t.shape.length) (cells : List (Nat × Nat))
    (hcells : ∀ c ∈ cells, c.1 < 4 ∧ c.2 < 4)
    (h : doesPieceFitFrom t field cells = some true) :
    ∀ c ∈ cells, Examined t c.1 c.2 →
      wstringAt field (fieldIndex (t.posX + (c.1 : Int)) (t.posY + (c.2 : Int)))
        = some emptyCell := by
  induction cells with
  | nil => intro c hc; simp at hc
  | cons a rest ih =>
    obtain ⟨i, j⟩ := a
    have hij := hcells (i, j) (List.mem_cons_self _ _)
    simp only at hij
    have hrest : ∀ c ∈ rest, c.1 < 4 ∧ c.2 < 4 :=
      fun c hc => hcells c (List.mem_cons_of_mem _ hc)
    have hread : wstringAt t.shape ((j * tetrominoWidth + i : Nat) : Int)
        = some (maskCell t.shape i j) := by
      rw [wstringAt_natCast]
      exact getElem?_eq_some_maskCell _ _ _ (by omega)
    simp only [doesPieceFitFrom, hread] at h
    intro c hc hex
    rcases List.mem_cons.1 hc with e | e
    · subst e
      obtain ⟨hocc, hrow⟩ := hex
      simp only at hocc hrow
      rw [if_neg hocc, if_neg (by omega)] at h
      simp only
      cases hf : wstringAt field (fieldIndex (t.posX + (i : Int)) (t.posY + (j : Int))) with
      | none => rw [hf] at h; exact absurd h (by simp)
      | some fc =>
        rw [hf] at h
        simp only at h
        by_cases hfc : fc = emptyCell
        · rw [hfc]
        · rw [if_neg hfc] at h
          exact absurd h (by simp)
    · apply ih hrest _ c e hex
      by_cases hocc : maskCell t.shape i j = emptyTetrominoPixel
      · rw [if_pos hocc] at h; exact h
      · rw [if_neg hocc] at h
        by_cases hrow : t.posY + (j : Int) < 0
        · rw [if_pos hrow] at h; exact h
        · rw [if_neg hrow] at h
          cases hf : wstringAt field (fieldIndex (t.posX + (i : Int)) (t.posY + (j : Int))) with
          | none => rw [hf] at h; exact absurd h (by simp)
          | some fc =>
            rw [hf] at h
            simp only at h
            by_cases hfc : fc = emptyCell
            · rw [if_pos hfc] at h; exact h
            · rw [if_neg hfc] at h
              exact absurd h (by simp)

/-- When every examined cell of the list has its index inside the buffer, the loop
returns: `true` with every examined cell Empty, or `false` with one that is not. -/
theorem doesPieceFitFrom_total (t : ActiveTetromino) (field : List Char)
    (hshape : t.shape.length = 16) (cells : List (Nat × Nat))
    (hcells : ∀ c ∈ cells, c.1 < 4 ∧ c.2 < 4)
    (hidx : ∀ c ∈ cells, Examined t c.1 c.2 →
      0 ≤ fieldIndex (t.posX + (c.1 : Int)) (t.posY + (c.2 : Int)) ∧
      fieldIndex (t.posX + (c.1 : Int)) (t.posY + (c.2 : Int)) < field.length) :
    (doesPieceFitFrom t field cells = some true ∧
      ∀ c ∈ cells, Examined t c.1 c.2 →
        cellAt field (fieldIndex (t.posX + (c.1 : Int)) (t.posY + (c.2 : Int))).toNat
          = emptyCell) ∨
    (doesPieceFitFrom t field cells = some false ∧
      ∃ c ∈ cells, Examined t c.1 c.2 ∧
        cellAt field (fieldIndex (t.posX + (c.1 : Int)) (t.posY + (c.2 : Int))).toNat
          ≠ emptyCell) := by
  induction cells with
  | nil => left; exact ⟨rfl, fun c hc => by simp at hc⟩
  | cons a rest ih =>
    obtain ⟨i, j⟩ := a
    have hij := hcells (i, j) (List.mem_cons_self _ _)
    simp only at hij
    have hread : wstringAt t.shape ((j * tetrominoWidth + i : Nat) : Int)
        = some (maskCell t.shape i j) := by
      rw [wstringAt_natCast]
      exact getElem?_eq_some_maskCell _ _ _ (by omega)
    have ih2 := ih (fun c hc => hcells c (List.mem_cons_of_mem _ hc))
      (fun c hc => hidx c (List.mem_cons_of_mem _ hc))
    have skip : ¬ Examined t i j →
        doesPieceFitFrom t field ((i, j) :: rest) = doesPieceFitFrom t field rest := by
      intro hne
      simp only [doesPieceFitFrom, hread]
      by_cases hocc : maskCell t.shape i j = emptyTetrominoPixel
      · rw [if_pos hocc]
      · rw [if_neg hocc]
        have hrow : t.posY + (j : Int) < 0 := by
          by_contra hge
          exact hne ⟨hocc, by omega⟩
        rw [if_pos hrow]
    have lift : doesPieceFitFrom t field ((i, j) :: rest) = doesPieceFitFrom t field rest →
        (Examined t i j →
          cellAt field (fieldIndex (t.posX + (i : Int)) (t.posY + (j : Int))).toNat
            = emptyCell) →
        ((doesPieceFitFrom t field rest = some true ∧
          ∀ c ∈ rest, Examined t c.1 c.2 →
            cellAt field (fieldIndex (t.posX + (c.1 : Int)) (t.posY + (c.2 : Int))).toNat
              = emptyCell) ∨
        (doesPieceFitFrom t field rest = some false ∧
          ∃ c ∈ rest, Examined t c.1 c.2 ∧
            cellAt field (fieldIndex (t.posX + (c.1 : Int)) (t.posY + (c.2 : Int))).toNat
              ≠ emptyCell)) →
        ((doesPieceFitFrom t field ((i, j) :: rest) = some true ∧
          ∀ c ∈ (i, j) :: rest, Examined t c.1 c.2 →
            cellAt field (fieldIndex (t.posX + (c.1 : Int)) (t.posY + (c.2 : Int))).toNat
              = emptyCell) ∨
        (doesPieceFitFrom t field ((i, j) :: rest) = some false ∧
          ∃ c ∈ (i, j) :: rest, Examined t c.1 c.2 ∧
            cellAt field (fieldIndex (t.posX + (c.1 : Int)) (t.posY + (c.2 : Int))).toNat
              ≠ emptyCell)) := by
      intro heq hhead hrest
      rcases hrest with ⟨h1, h2⟩ | ⟨h1, c, hc, h3⟩
      · left
        refine ⟨heq.trans h1, ?_⟩
        intro c hc hex
        rcases List.mem_cons.1 hc with e | e
        · subst e; exact hhead hex
        · exact h2 c e hex
      · right
        exact ⟨heq.trans h1, c, List.mem_cons_of_mem _ hc, h3⟩
    by_cases hex : Examined t i j
    · obtain ⟨h0, h1⟩ := hidx (i, j) (List.mem_cons_self _ _) hex
      simp only at h0 h1
      have hfield := wstringAt_inRange field _ h0 h1
      by_cases hfc : cellAt field
          (fieldIndex (t.posX + (i : Int)) (t.posY + (j : Int))).toNat = emptyCell
      · apply lift _ (fun _ => hfc) ih2
        simp only [doesPieceFitFrom, hread, hfield]
        rw [if_neg hex.1, if_neg (by have := hex.2; omega), if_pos hfc]
      · right
        refine ⟨?_, (i, j), List.mem_cons_self _ _, hex, hfc⟩
        simp only [doesPieceFitFrom, hread, hfield]
        rw [if_neg hex.1, if_neg (by have := hex.2; omega), if_neg hfc]
    · exact lift (skip hex) (fun h => absurd h hex) ih2

theorem mem_fitOrder (c : Nat × Nat) : c ∈ fitOrder ↔ c.1 < 4 ∧ c.2 < 4 := by
  obtain ⟨i, j⟩ := c
  simp only [fitOrder, tetrominoWidth, tetrominoHeight, List.mem_flatMap, List.mem_map,
    List.mem_reverse, List.mem_range, Prod.mk.injEq]
  constructor
  · rintro ⟨a, ha, b, hb, e1, e2⟩
    omega
  · rintro ⟨h1, h2⟩
    exact ⟨i, h1, j, h2, rfl, rfl⟩

/-- The fit test on a pose whose examined indices are all inside a 216-cell field. -/
theorem doesPieceFit_cases (t : ActiveTetromino) (field : List Char)
    (hshape : t.shape.length = tetrominoPixels) (hlen : field.length = fieldPixels)
    (hidx : ∀ i j, i < 4 → j < 4 → maskCell t.shape i j ≠ emptyTetrominoPixel →
      0 ≤ t.posY + (j : Int) →
      0 ≤ fieldIndex (t.posX + (i : Int)) (t.posY + (j : Int)) ∧
      fieldIndex (t.posX + (i : Int)) (t.posY + (j : Int)) < (fieldPixels : Int)) :
    (doesPieceFit t field = some true ∨ doesPieceFit t field = some false) ∧
    (doesPieceFit t field = some true ↔
      ∀ i j, i < 4 → j < 4 → maskCell t.shape i j ≠ emptyTetrominoPixel →
        0 ≤ t.posY + (j : Int) →
        cellAt field (fieldIndex (t.posX + (i : Int)) (t.posY + (j : Int))).toNat
          = emptyCell) := by
  have key := doesPieceFitFrom_total t field hshape fitOrder
    (fun c hc => (mem_fitOrder c).1 hc)
    (fun c hc hex => by
      have hc4 := (mem_fitOrder c).1 hc
      have := hidx c.1 c.2 hc4.1 hc4.2 hex.1 hex.2
      rw [hlen]
      exact this)
  unfold doesPieceFit
  rcases key with ⟨h1, h2⟩ | ⟨h1, c, hc, hex, hne⟩
  · refine ⟨Or.inl h1, fun _ => ?_, fun _ => h1⟩
    intro i j hi hj hocc hrow
    exact h2 (i, j) ((mem_fitOrder (i, j)).2 ⟨hi, hj⟩) ⟨hocc, hrow⟩
  · refine ⟨Or.inr h1, fun h => ?_, fun h => ?_⟩
    · rw [h1] at h
      exact absurd h (by simp)
    · have hc4 := (mem_fitOrder c).1 hc
      exact absurd (h c.1 c.2 hc4.1 hc4.2 hex.1 hex.2) hne

/-- C5: `doesPieceFit` on a field of 12x18 cells, for a pose whose examined indices
(occupied mask cells with field row `posY + j >= 0`) all lie inside the field: it returns,
and it returns `true` if and only if every occupied mask cell `(i, j)` with
`posY + j >= 0` has an Empty field cell at row `posY + j`, column `posX + i`.  Occupied
cells with `posY + j < 0` are not part of the condition. -/
theorem doesPieceFit_iff_cells_empty (t : ActiveTetromino) (field : List Char)
    (hshape : t.shape.length = tetrominoPixels) (hlen : field.length = fieldPixels)
    (hidx : ∀ i j, i < 4 → j < 4 → maskCell t.shape i j ≠ emptyTetrominoPixel →
      0 ≤ t.posY + (j : Int) →
      0 ≤ fieldIndex (t.posX + (i : Int)) (t.posY + (j : Int)) ∧
      fieldIndex (t.posX + (i : Int)) (t.posY + (j : Int)) < (fieldPixels : Int)) :
    (doesPieceFit t field = some true ∨ doesPieceFit t field = some false) ∧
    (doesPieceFit t field = some true ↔
      ∀ i j, i < 4 → j < 4 → maskCell t.shape i j ≠ emptyTetrominoPixel →
        0 ≤ t.posY + (j : Int) →
        cellAt field (fieldIndex (t.posX + (i : Int)) (t.posY + (j : Int))).toNat
          = emptyCell) :=
  doesPieceFit_cases t field hshape hlen hidx

theorem fieldIndex_inRange (x y : Int) (hx : 0 ≤ x ∧ x ≤ 11) (hy : 0 ≤ y ∧ y ≤ 17) :
    0 ≤ fieldIndex x y ∧ fieldIndex x y < (fieldPixels : Int) := by
  simp only [fieldIndex, fieldWidth, fieldPixels, fieldHeight]
  omega

theorem initialField_length : initialField.length = fieldPixels := by decide!

theorem initialField_borderIntact : BorderIntact initialField := by decide!

theorem doesPieceFit_iff_cells_empty_witness :
    (doesPieceFit (mkPiece .Line 4 (-2) 0) initialField = some true ∨
      doesPieceFit (mkPiece .Line 4 (-2) 0) initialField = some false) ∧
    (doesPieceFit (mkPiece .Line 4 (-2) 0) initialField = some true ↔
      ∀ i j, i < 4 → j < 4 →
        maskCell (mkPiece .Line 4 (-2) 0).shape i j ≠ emptyTetrominoPixel →
        0 ≤ (mkPiece .Line 4 (-2) 0).posY + (j : Int) →
        cellAt initialField (fieldIndex ((mkPiece .Line 4 (-2) 0).posX + (i : Int))
          ((mkPiece .Line 4 (-2) 0).posY + (j : Int))).toNat = emptyCell) :=
  doesPieceFit_iff_cells_empty (mkPiece .Line 4 (-2) 0) initialField (by decide)
    initialField_length
    (fun i j hi hj _ hrow => fieldIndex_inRange _ _
      ⟨by simp only [mkPiece_eq]; omega, by simp only [mkPiece_eq]; omega⟩
      ⟨hrow, by simp only [mkPiece_eq]; omega⟩)

/-! ## The lock -/

theorem wstringSet_inRange (f : List Char) (k : Int) (c : Char) (h0 : 0 ≤ k)
    (h1 : k < f.length) : wstringSet f k c = some (f.set k.toNat c) := by
  have hk : k.toNat < f.length := by omega
  simp [wstringSet, h0, hk]

/-- The lock loop over a list of cells whose occupied members have their index inside the
buffer: it succeeds, keeps the length, writes the kind letter under every occupied cell
of the list and leaves every other cell as it was. -/
theorem cementifyFrom_spec (t : ActiveTetromino) (hshape : 16 ≤ t.shape.length)
    (cells : List (Nat × Nat)) (hcells : ∀ c ∈ cells, c.1 < 4 ∧ c.2 < 4) :
    ∀ field : List Char,
      (∀ c ∈ cells, maskCell t.shape c.1 c.2 ≠ emptyTetrominoPixel →
        0 ≤ fieldIndex (t.posX + (c.1 : Int)) (t.posY + (c.2 : Int)) ∧
        fieldIndex (t.posX + (c.1 : Int)) (t.posY + (c.2 : Int)) < field.length) →
      ∃ written, cementifyFrom t cells field = some written ∧
        written.length = field.length ∧
        ∀ n : Nat, cellAt written n
          = if ∃ c ∈ cells, maskCell t.shape c.1 c.2 ≠ emptyTetrominoPixel ∧
                fieldIndex (t.posX + (c.1 : Int)) (t.posY + (c.2 : Int)) = (n : Int)
            then kindLetter t.type else cellAt field n := by
  induction cells with
  | nil =>
    intro field _
    exact ⟨field, rfl, rfl, fun n => by simp⟩
  | cons a rest ih =>
    obtain ⟨i, j⟩ := a
    intro field hidx
    have hij := hcells (i, j) (List.mem_cons_self _ _)
    simp only at hij
    have hread : t.shape[j * tetrominoWidth + i]? = some (maskCell t.shape i j) :=
      getElem?_eq_some_maskCell _ _ _ (by omega)
    have hrest : ∀ c ∈ rest, c.1 < 4 ∧ c.2 < 4 :=
      fun c hc => hcells c (List.mem_cons_of_mem _ hc)
    by_cases hocc : maskCell t.shape i j = emptyTetrominoPixel
    · obtain ⟨w, hw, hwlen, hwcell⟩ := ih hrest field
        (fun c hc => hidx c (List.mem_cons_of_mem _ hc))
      refine ⟨w, ?_, hwlen, ?_⟩
      · simp only [cementifyFrom, hread, if_pos hocc]
        exact hw
      · intro n
        rw [hwcell n]
        have hiff : (∃ c ∈ (i, j) :: rest, maskCell t.shape c.1 c.2 ≠ emptyTetrominoPixel ∧
              fieldIndex (t.posX + (c.1 : Int)) (t.posY + (c.2 : Int)) = (n : Int)) ↔
            (∃ c ∈ rest, maskCell t.shape c.1 c.2 ≠ emptyTetrominoPixel ∧
              fieldIndex (t.posX + (c.1 : Int)) (t.posY + (c.2 : Int)) = (n : Int)) := by
          constructor
          · rintro ⟨c, hc, h1, h2⟩
            rcases List.mem_cons.1 hc with e | e
            · subst e; exact absurd hocc h1
            · exact ⟨c, e, h1, h2⟩
          · rintro ⟨c, hc, h1, h2⟩
            exact ⟨c, List.mem_cons_of_mem _ hc, h1, h2⟩
        simp only [hiff]
    · obtain ⟨h0, h1⟩ := hidx (i, j) (List.mem_cons_self _ _) hocc
      simp only at h0 h1
      have hset := wstringSet_inRange field _ (kindLetter t.type) h0 h1
      obtain ⟨w, hw, hwlen, hwcell⟩ := ih hrest
        (field.set (fieldIndex (t.posX + (i : Int)) (t.posY + (j : Int))).toNat
          (kindLetter t.type))
        (fun c hc hco => by
          have := hidx c (List.mem_cons_of_mem _ hc) hco
          simpa using this)
      refine ⟨w, ?_, by simpa using hwlen, ?_⟩
      · simp only [cementifyFrom, hread, if_neg hocc, hset]
        exact hw
      · intro n
        rw [hwcell n, cellAt_set]
        by_cases hr : ∃ c ∈ rest, maskCell t.shape c.1 c.2 ≠ emptyTetrominoPixel ∧
            fieldIndex (t.posX + (c.1 : Int)) (t.posY + (c.2 : Int)) = (n : Int)
        · have hall : ∃ c ∈ (i, j) :: rest, maskCell t.shape c.1 c.2 ≠ emptyTetrominoPixel ∧
              fieldIndex (t.posX + (c.1 : Int)) (t.posY + (c.2 : Int)) = (n : Int) := by
            obtain ⟨c, hc, h2⟩ := hr
            exact ⟨c, List.mem_cons_of_mem _ hc, h2⟩
          rw [if_pos hr, if_pos hall]
        · rw [if_neg hr]
          by_cases hn : fieldIndex (t.posX + (i : Int)) (t.posY + (j : Int)) = (n : Int)
          · have hall : ∃ c ∈ (i, j) :: rest,
                maskCell t.shape c.1 c.2 ≠ emptyTetrominoPixel ∧
                fieldIndex (t.posX + (c.1 : Int)) (t.posY + (c.2 : Int)) = (n : Int) :=
              ⟨(i, j), List.mem_cons_self _ _, hocc, hn⟩
            have hcond : n = (fieldIndex (t.posX + (i : Int)) (t.posY + (j : Int))).toNat ∧
                (fieldIndex (t.posX + (i : Int)) (t.posY + (j : Int))).toNat
                  < field.length := by
              constructor <;> omega
            rw [if_pos hcond, if_pos hall]
          · have hnone : ¬ ∃ c ∈ (i, j) :: rest,
                maskCell t.shape c.1 c.2 ≠ emptyTetrominoPixel ∧
                fieldIndex (t.posX + (c.1 : Int)) (t.posY + (c.2 : Int)) = (n : Int) := by
              rintro ⟨c, hc, h2, h3⟩
              rcases List.mem_cons.1 hc with e | e
              · subst e; exact hn h3
              · exact hr ⟨c, e, h2, h3⟩
            have hcond : ¬ (n = (fieldIndex (t.posX + (i : Int)) (t.posY + (j : Int))).toNat ∧
                (fieldIndex (t.posX + (i : Int)) (t.posY + (j : Int))).toNat
                  < field.length) := by
              rintro ⟨e, _⟩
              apply hn
              omega
            rw [if_neg hcond, if_neg hnone]

theorem mem_cementOrder (c : Nat × Nat) : c ∈ cementOrder ↔ c.1 < 4 ∧ c.2 < 4 := by
  obtain ⟨i, j⟩ := c
  simp only [cementOrder, tetrominoWidth, List.mem_flatMap, List.mem_map,
    List.mem_range, Prod.mk.injEq]
  constructor
  · rintro ⟨a, ha, b, hb, e1, e2⟩
    omega
  · rintro ⟨h1, h2⟩
    exact ⟨i, h1, j, h2, rfl, rfl⟩

theorem kindLetter_eq (kind : TetrominoType) :
    kindLetter kind = Char.ofNat ('A'.toNat + kind.toNat) := by
  cases kind <;> decide

/-- C8: `cementify`, postcondition and frame.  For a field of 216 cells and a piece whose
occupied mask cells all have their index `(posY + j) * 12 + (posX + i)` inside the field:
`cementify` completes, the field cell under every occupied mask cell `(i, j)` then holds
the kind letter (`A`..`G` by kind index), and every cell that is under no occupied mask
cell keeps its value. -/
theorem cementify_writes_kind_letter (t : ActiveTetromino) (field : List Char)
    (hshape : t.shape.length = tetrominoPixels) (hlen : field.length = fieldPixels)
    (hidx : ∀ i j, i < 4 → j < 4 → maskCell t.shape i j ≠ emptyTetrominoPixel →
      0 ≤ fieldIndex (t.posX + (i : Int)) (t.posY + (j : Int)) ∧
      fieldIndex (t.posX + (i : Int)) (t.posY + (j : Int)) < (fieldPixels : Int)) :
    ∃ written, cementify t field = some written ∧
      written.length = fieldPixels ∧
      kindLetter t.type = Char.ofNat ('A'.toNat + t.type.toNat) ∧
      (∀ i j, i < 4 → j < 4 → maskCell t.shape i j ≠ emptyTetrominoPixel →
        cellAt written (fieldIndex (t.posX + (i : Int)) (t.posY + (j : Int))).toNat
          = kindLetter t.type) ∧
      (∀ n : Nat,
        (∀ i j, i < 4 → j < 4 → maskCell t.shape i j ≠ emptyTetrominoPixel →
          fieldIndex (t.posX + (i : Int)) (t.posY + (j : Int)) ≠ (n : Int)) →
        cellAt written n = cellAt field n) := by
  obtain ⟨w, hw, hwlen, hwcell⟩ := cementifyFrom_spec t hshape.ge cementOrder
    (fun c hc => (mem_cementOrder c).1 hc) field
    (fun c hc hocc => by
      have hc4 := (mem_cementOrder c).1 hc
      have := hidx c.1 c.2 hc4.1 hc4.2 hocc
      rw [hlen]
      exact this)
  refine ⟨w, hw, by rw [hwlen]; exact hlen, kindLetter_eq _, ?_, ?_⟩
  · intro i j hi hj hocc
    rw [hwcell, if_pos]
    refine ⟨(i, j), (mem_cementOrder (i, j)).2 ⟨hi, hj⟩, hocc, ?_⟩
    have := (hidx i j hi hj hocc).1
    simp only
    omega
  · intro n hn
    rw [hwcell, if_neg]
    rintro ⟨c, hc, hocc, he⟩
    have hc4 := (mem_cementOrder c).1 hc
    exact hn c.1 c.2 hc4.1 hc4.2 hocc he

/-! ## The border as bounds check -/

/-- C6 as stated fails: on the initial field (borders intact) a Line piece in rotation 1
lies in row 1 of its mask.  At `(8, -2)` its cell `(3, 1)` is in field column 11, and at
`(14, 0)` all its cells are in field columns 14..17, yet `doesPieceFit` returns `true`
(row -1 is skipped; indices 26..29 are read, which are cells of the next row).  At
`(4, 15)` in rotation 0 the lowest cell is in field row 18 and `.at` throws instead of
returning `false`. -/
theorem doesPieceFit_past_border_counterexample :
    BorderIntact initialField ∧
    maskCell (mkPiece .Line 8 (-2) 1).shape 3 1 ≠ emptyTetrominoPixel ∧
    (mkPiece .Line 8 (-2) 1).posX + 3 ≥ 11 ∧
    doesPieceFit (mkPiece .Line 8 (-2) 1) initialField = some true ∧
    maskCell (mkPiece .Line 14 0 1).shape 0 1 ≠ emptyTetrominoPixel ∧
    (mkPiece .Line 14 0 1).posX + 0 ≥ 11 ∧ (mkPiece .Line 14 0 1).posY + 1 ≥ 0 ∧
    doesPieceFit (mkPiece .Line 14 0 1) initialField = some true ∧
    maskCell (mkPiece .Line 4 15 0).shape 2 3 ≠ emptyTetrominoPixel ∧
    (mkPiece .Line 4 15 0).posY + 3 ≥ 17 ∧
    doesPieceFit (mkPiece .Line 4 15 0) initialField = none := by
  decide!

/-- C6 as amended: on a field of 216 cells whose border cells are intact, if some occupied
mask cell lies on a border cell (field row in 0..17, field column in 0..11, and column 0,
column 11 or row 17), `doesPieceFit` does not return `true`; and it returns `false`
whenever every occupied mask cell with field row `>= 0` has its index inside the field. -/
theorem doesPieceFit_false_on_border (t : ActiveTetromino) (field : List Char)
    (hshape : t.shape.length = tetrominoPixels) (hlen : field.length = fieldPixels)
    (hborder : BorderIntact field) (i j : Nat) (hi : i < 4) (hj : j < 4)
    (hocc : maskCell t.shape i j ≠ emptyTetrominoPixel)
    (hrow : 0 ≤ t.posY + (j : Int) ∧ t.posY + (j : Int) ≤ 17)
    (hcol : 0 ≤ t.posX + (i : Int) ∧ t.posX + (i : Int) ≤ 11)
    (hon : t.posX + (i : Int) = 0 ∨ t.posX + (i : Int) = 11 ∨ t.posY + (j : Int) = 17) :
    doesPieceFit t field ≠ some true ∧
    ((∀ a b, a < 4 → b < 4 → maskCell t.shape a b ≠ emptyTetrominoPixel →
        0 ≤ t.posY + (b : Int) →
        0 ≤ fieldIndex (t.posX + (a : Int)) (t.posY + (b : Int)) ∧
        fieldIndex (t.posX + (a : Int)) (t.posY + (b : Int)) < (fieldPixels : Int)) →
      doesPieceFit t field = some false) := by
  have hnot : doesPieceFit t field ≠ some true := by
    intro htrue
    have hread := doesPieceFitFrom_true t field hshape.ge fitOrder
      (fun c hc => (mem_fitOrder c).1 hc) htrue (i, j)
      ((mem_fitOrder (i, j)).2 ⟨hi, hj⟩) ⟨hocc, hrow.1⟩
    obtain ⟨_, _, hcell⟩ := wstringAt_eq_some _ _ _ hread
    simp only [fieldIndex, fieldWidth] at hcell
    obtain ⟨r, hr⟩ := Int.eq_ofNat_of_zero_le hrow.1
    obtain ⟨c, hc⟩ := Int.eq_ofNat_of_zero_le hcol.1
    rw [hr, hc] at hcell
    have hnat : ((r : Int) * ((12 : Nat) : Int) + (c : Int)).toNat = r * 12 + c := by
      omega
    rw [hnat] at hcell
    have hb := hborder (r * 12 + c)
      (by simp only [fieldPixels, fieldWidth, fieldHeight]; omega)
      (by
        simp only [isBorderIndex, fieldWidth, fieldHeight, Bool.or_eq_true, beq_iff_eq]
        rcases hon with h | h | h
        · left; left; omega
        · left; right; omega
        · right; omega)
    rw [hb] at hcell
    exact absurd hcell (by decide)
  refine ⟨hnot, fun hidx => ?_⟩
  rcases (doesPieceFit_cases t field hshape hlen hidx).1 with h | h
  · exact absurd h hnot
  · exact h

theorem doesPieceFit_false_on_border_witness :
    doesPieceFit (mkPiece .Line 4 14 0) initialField ≠ some true ∧
    doesPieceFit (mkPiece .Line 4 14 0) initialField = some false :=
  have h := doesPieceFit_false_on_border (mkPiece .Line 4 14 0) initialField (by decide)
    initialField_length initialField_borderIntact 2 3 (by decide) (by decide) (by decide)
    (by decide) (by decide) (by decide)
  ⟨h.1, h.2 (fun a b _ _ _ hrow => fieldIndex_inRange _ _
    ⟨by simp only [mkPiece_eq]; omega, by simp only [mkPiece_eq]; omega⟩
    ⟨hrow, by simp only [mkPiece_eq]; omega⟩)⟩

/-! ## Witnesses for the lock, the scan and the shift -/

theorem cementify_writes_kind_letter_witness :
    ∃ written, cementify (mkPiece .LeftL 4 14 3) initialField = some written ∧
      written.length = fieldPixels ∧
      kindLetter (mkPiece .LeftL 4 14 3).type
        = Char.ofNat ('A'.toNat + (mkPiece .LeftL 4 14 3).type.toNat) ∧
      (∀ i j, i < 4 → j < 4 →
        maskCell (mkPiece .LeftL 4 14 3).shape i j ≠ emptyTetrominoPixel →
        cellAt written (fieldIndex ((mkPiece .LeftL 4 14 3).posX + (i : Int))
            ((mkPiece .LeftL 4 14 3).posY + (j : Int))).toNat
          = kindLetter (mkPiece .LeftL 4 14 3).type) ∧
      (∀ n : Nat,
        (∀ i j, i < 4 → j < 4 →
          maskCell (mkPiece .LeftL 4 14 3).shape i j ≠ emptyTetrominoPixel →
          fieldIndex ((mkPiece .LeftL 4 14 3).posX + (i : Int))
            ((mkPiece .LeftL 4 14 3).posY + (j : Int)) ≠ (n : Int)) →
        cellAt written n = cellAt initialField n) :=
  cementify_writes_kind_letter (mkPiece .LeftL 4 14 3) initialField (by decide)
    initialField_length
    (fun i j _ _ _ => fieldIndex_inRange _ _
      ⟨by simp only [mkPiece_eq]; omega, by simp only [mkPiece_eq]; omega⟩
      ⟨by simp only [mkPiece_eq]; omega, by simp only [mkPiece_eq]; omega⟩)

theorem oneFullRow_length : oneFullRow.length = fieldPixels := by decide!

theorem oneFullRow_borderNonEmpty : BorderNonEmpty oneFullRow := by decide!

theorem scanCompletedRows_reports_full_rows_witness :
    (16 ∈ (scanCompletedRows oneFullRow).1 ↔
      16 ≤ 16 ∧ ∀ x, 1 ≤ x → x ≤ 10 →
        cellAt oneFullRow (16 * fieldWidth + x) ≠ emptyCell) ∧
    (scanCompletedRows oneFullRow).1.Pairwise (fun a b => a < b) ∧
    (scanCompletedRows oneFullRow).2.length = fieldPixels ∧
    cellAt (scanCompletedRows oneFullRow).2 (16 * fieldWidth + 3)
      = (if 16 ∈ (scanCompletedRows oneFullRow).1 ∧ 1 ≤ 3 ∧ 3 ≤ 10
          then completedLineCell else cellAt oneFullRow (16 * fieldWidth + 3)) :=
  have h := scanCompletedRows_reports_full_rows oneFullRow oneFullRow_length
    oneFullRow_borderNonEmpty
  ⟨h.1 16, h.2.1, h.2.2.1, h.2.2.2 16 3 (by decide)⟩

theorem twoMarkedRows_length : twoMarkedRows.length = fieldPixels := by decide!

theorem shiftRowsDown_moves_rows_witness :
    (shiftRowsDown twoMarkedRows [15, 16]).length = fieldPixels ∧
    cellAt (shiftRowsDown twoMarkedRows [15, 16]) ((14 + [15, 16].length) * fieldWidth + 4)
      = cellAt twoMarkedRows (14 * fieldWidth + 4) ∧
    cellAt (shiftRowsDown twoMarkedRows [15, 16]) (17 * fieldWidth + 5)
      = cellAt twoMarkedRows (17 * fieldWidth + 5) :=
  have h := shiftRowsDown_moves_rows twoMarkedRows [15, 16] twoMarkedRows_length
    (by decide) (by decide)
  ⟨h.1, h.2.1 14 4 (by decide) (by decide) (by decide), h.2.2.2 (17 * fieldWidth + 5) (by decide)⟩

/-! ## The game loop: a lock that writes into the border row -/

theorem reachable_runTicks (inputs : List (Keys × Nat)) :
    ∀ game next : Game, Reachable game → runTicks game inputs = .running next →
      Reachable next := by
  induction inputs with
  | nil =>
    intro game next hr h
    simp only [runTicks, Outcome.running.injEq] at h
    exact h ▸ hr
  | cons a rest ih =>
    obtain ⟨keys, rand⟩ := a
    intro game next hr h
    simp only [runTicks] at h
    cases ht : tick game keys rand with
    | running mid =>
      rw [ht] at h
      exact ih mid next (Reachable.step game mid keys rand hr ht) h
    | gameOver g => rw [ht] at h; exact absurd h (by simp)
    | outOfRange => rw [ht] at h; exact absurd h (by simp)
    | undefinedBehaviour => rw [ht] at h; exact absurd h (by simp)

theorem lockOnBorder_run :
    runTicks initialGame lockOnBorderKeys = .running lockOnBorderBefore := by decide!

theorem lockOnBorder_tick :
    tick lockOnBorderBefore ⟨false, false, true, true⟩ 0 = .running lockOnBorderAfter := by
  decide!

/-- C7: a run of the loop that ends with a border cell overwritten.  Sixteen ticks from
the initial state leave a LeftL piece on the floor of the empty field at `(4, 14)` in
rotation 3, all border cells intact.  On the next tick, with Z and Down pressed, the
rotation to index 0 does not fit, the rollback stores rotation -1 with the rotation-0
mask, the descent test fails on cell `(1, 2)`, and `cementify` writes the letter `D`
into the border cell of row 17, column 6. -/
theorem lock_overwrites_border_cell :
    runTicks initialGame lockOnBorderKeys = .running lockOnBorderBefore ∧
    Reachable lockOnBorderBefore ∧
    BorderIntact lockOnBorderBefore.field ∧
    tick lockOnBorderBefore ⟨false, false, true, true⟩ 0 = .running lockOnBorderAfter ∧
    Reachable lockOnBorderAfter ∧
    isBorderIndex (17 * fieldWidth + 6) = true ∧
    cellAt lockOnBorderAfter.field (17 * fieldWidth + 6) = 'D' ∧
    ¬ BorderIntact lockOnBorderAfter.field := by
  have hbefore : Reachable lockOnBorderBefore :=
    reachable_runTicks _ _ _ Reachable.start lockOnBorder_run
  refine ⟨lockOnBorder_run, hbefore, by decide!, lockOnBorder_tick,
    Reachable.step _ _ _ _ hbefore lockOnBorder_tick, by decide, by decide!, by decide!⟩

/-! ## The shape table under rotation -/

theorem occupiedCount_closed : ∀ kind : TetrominoType, ∀ r ∈ [(0 : Int), 1, 2, 3],
    occupiedCount (shapeOf kind r) = occupiedCount (canonicalMask kind) ∧
    occupiedCount (shapeOf kind r) = 4 ∧
    (shapeOf kind r).length = tetrominoPixels ∧
    ∀ c ∈ shapeOf kind r, c = concreteTetrominoPixel ∨ c = emptyTetrominoPixel := by
  intro kind
  cases kind <;> decide!

/-- C16: rotation is measure-preserving.  For every kind and every rotation index in
0..3 the mask `getShape` returns has as many occupied cells as the canonical mask of the
kind, namely 4, has 16 cells, and holds only the characters `X` and `.`. -/
theorem getShape_preserves_cell_count (kind : TetrominoType) (posX posY : Int)
    (shape : List Char) (r : Fin 4) :
    occupiedCount (getShape ⟨kind, posX, posY, (r.val : Int), shape⟩)
      = occupiedCount (canonicalMask kind) ∧
    occupiedCount (getShape ⟨kind, posX, posY, (r.val : Int), shape⟩) = 4 ∧
    (getShape ⟨kind, posX, posY, (r.val : Int), shape⟩).length = tetrominoPixels ∧
    ∀ c ∈ getShape ⟨kind, posX, posY, (r.val : Int), shape⟩,
      c = concreteTetrominoPixel ∨ c = emptyTetrominoPixel := by
  simp only [getShape_eq_shapeOf]
  apply occupiedCount_closed kind
  have h := r.isLt
  have hcases : r.val = 0 ∨ r.val = 1 ∨ r.val = 2 ∨ r.val = 3 := by omega
  rcases hcases with e | e | e | e <;> rw [e] <;> decide

/-! ## The game loop, part by part -/

theorem tick_eq (game : Game) (keys : Keys) (rand : Nat) :
    tick game keys rand =
      match doesPieceFit (spawn game.currentTetromino rand) game.field with
      | none => .outOfRange
      | some false =>
        .gameOver { game with currentTetromino := some (spawn game.currentTetromino rand) }
      | some true =>
        match rotatePhase game keys (spawn game.currentTetromino rand) with
        | none => .outOfRange
        | some (rotated, isRotating) =>
          match translatePhase game keys rotated with
          | none => .outOfRange
          | some (moved, isTranslating) =>
            descend
              { game with
                currentTetromino := some (spawn game.currentTetromino rand),
                isRotating := isRotating, isTranslating := isTranslating }
              moved keys.down := rfl

theorem lockPiece_eq (game : Game) (tetromino : ActiveTetromino) :
    lockPiece game tetromino =
      match cementify tetromino game.field with
      | none => .undefinedBehaviour
      | some cemented => .running (afterLock game cemented) := rfl

theorem lockPiece_running (game next : Game) (tetromino : ActiveTetromino)
    (h : lockPiece game tetromino = .running next) :
    ∃ cemented, cementify tetromino game.field = some cemented ∧
      next = afterLock game cemented := by
  rw [lockPiece_eq] at h
  cases hc : cementify tetromino game.field with
  | none => rw [hc] at h; exact absurd h (by simp)
  | some cemented =>
    rw [hc] at h
    simp only [Outcome.running.injEq] at h
    exact ⟨cemented, rfl, h.symm⟩

/-- The piece after the descent step, one row lower. -/
theorem descend_eq (game : Game) (tetromino : ActiveTetromino) (pushDown : Bool) :
    descend game tetromino pushDown =
      if pushDown = true ∨
          (if pushDown = true then game.speedCounter else game.speedCounter + 1)
            = game.movementThreshold then
        match doesPieceFit { tetromino with posY := tetromino.posY + 1 } game.field with
        | none => .outOfRange
        | some true =>
          .running { game with
            speedCounter := 0,
            currentTetromino := some { tetromino with posY := tetromino.posY + 1 } }
        | some false =>
          if tetromino.posY + 1 - 1 < 0 then .gameOver { game with speedCounter := 0 }
          else lockPiece { game with speedCounter := 0 }
            { tetromino with posY := tetromino.posY + 1 - 1 }
      else
        .running { game with
          speedCounter := (if pushDown = true then game.speedCounter else game.speedCounter + 1),
          currentTetromino := some tetromino } := rfl

/-- What a tick that goes on can have done: either it stored a piece and left field,
score and counters alone, or it locked a piece. -/
theorem descend_running (game next : Game) (tetromino : ActiveTetromino) (pushDown : Bool)
    (h : descend game tetromino pushDown = .running next) :
    ((∃ stored, next.currentTetromino = some stored) ∧ next.field = game.field ∧
      next.score = game.score ∧ next.placedPiecesCounter = game.placedPiecesCounter ∧
      next.movementThreshold = game.movementThreshold ∧
      next.isRotating = game.isRotating ∧ next.isTranslating = game.isTranslating) ∨
    (∃ cemented,
      cementify { tetromino with posY := tetromino.posY + 1 - 1 } game.field = some cemented ∧
      next = afterLock { game with speedCounter := 0 } cemented) := by
  rw [descend_eq] at h
  by_cases hdue : pushDown = true ∨
      (if pushDown = true then game.speedCounter else game.speedCounter + 1)
        = game.movementThreshold
  · rw [if_pos hdue] at h
    cases hf : doesPieceFit { tetromino with posY := tetromino.posY + 1 } game.field with
    | none => rw [hf] at h; exact absurd h (by simp)
    | some b =>
      rw [hf] at h
      cases b with
      | true =>
        simp only [Outcome.running.injEq] at h
        left
        rw [← h]
        exact ⟨⟨_, rfl⟩, rfl, rfl, rfl, rfl, rfl, rfl⟩
      | false =>
        simp only at h
        by_cases hneg : tetromino.posY + 1 - 1 < 0
        · rw [if_pos hneg] at h; exact absurd h (by simp)
        · rw [if_neg hneg] at h
          right
          exact lockPiece_running _ _ _ h
  · rw [if_neg hdue] at h
    simp only [Outcome.running.injEq] at h
    left
    rw [← h]
    exact ⟨⟨_, rfl⟩, rfl, rfl, rfl, rfl, rfl, rfl⟩

theorem tick_running (game next : Game) (keys : Keys) (rand : Nat)
    (h : tick game keys rand = .running next) :
    ((∃ stored, next.currentTetromino = some stored) ∧ next.field = game.field ∧
      next.score = game.score ∧ next.placedPiecesCounter = game.placedPiecesCounter ∧
      next.movementThreshold = game.movementThreshold) ∨
    (∃ cemented, next.currentTetromino = none ∧
      next.placedPiecesCounter = game.placedPiecesCounter + 1 ∧
      next.movementThreshold =
        (if Int.tmod (game.placedPiecesCounter + 1) nthPieceSpeedup = 0 ∧
            game.movementThreshold > 2
          then game.movementThreshold - 1 else game.movementThreshold) ∧
      next.score = game.score + lockScore (scanCompletedRows cemented).1) := by
  rw [tick_eq] at h
  cases hf : doesPieceFit (spawn game.currentTetromino rand) game.field with
  | none => rw [hf] at h; exact absurd h (by simp)
  | some b =>
    rw [hf] at h
    cases b with
    | false => exact absurd h (by simp)
    | true =>
      simp only at h
      cases hr : rotatePhase game keys (spawn game.currentTetromino rand) with
      | none => rw [hr] at h; exact absurd h (by simp)
      | some rot =>
        obtain ⟨rotated, isRotating⟩ := rot
        rw [hr] at h
        simp only at h
        cases ht : translatePhase game keys rotated with
        | none => rw [ht] at h; exact absurd h (by simp)
        | some mv =>
          obtain ⟨moved, isTranslating⟩ := mv
          rw [ht] at h
          simp only at h
          rcases descend_running _ _ _ _ h with ⟨h1, h2, h3, h4, h5, _, _⟩ | ⟨cemented, _, h2⟩
          · left
            exact ⟨h1, h2, h3, h4, h5⟩
          · right
            refine ⟨cemented, ?_, ?_, ?_, ?_⟩ <;> rw [h2] <;> rfl

/-! ## Game over -/

theorem descend_gameOver_iff (game over : Game) (tetromino : ActiveTetromino)
    (pushDown : Bool) :
    descend game tetromino pushDown = .gameOver over ↔
      ((pushDown = true ∨ game.speedCounter + 1 = game.movementThreshold) ∧
        doesPieceFit { tetromino with posY := tetromino.posY + 1 } game.field = some false ∧
        tetromino.posY < 0 ∧ over = { game with speedCounter := 0 }) := by
  rw [descend_eq]
  have hdueiff : (pushDown = true ∨
      (if pushDown = true then game.speedCounter else game.speedCounter + 1)
        = game.movementThreshold) ↔
      (pushDown = true ∨ game.speedCounter + 1 = game.movementThreshold) := by
    cases pushDown <;> simp
  by_cases hdue : pushDown = true ∨
      (if pushDown = true then game.speedCounter else game.speedCounter + 1)
        = game.movementThreshold
  · rw [if_pos hdue]
    have hdue2 := hdueiff.1 hdue
    cases hf : doesPieceFit { tetromino with posY := tetromino.posY + 1 } game.field with
    | none => simp
    | some b =>
      cases b with
      | true => simp
      | false =>
        simp only
        by_cases hneg : tetromino.posY + 1 - 1 < 0
        · rw [if_pos hneg]
          have hneg2 : tetromino.posY < 0 := by omega
          simp only [Outcome.gameOver.injEq]
          constructor
          · intro e; exact ⟨hdue2, trivial, hneg2, e.symm⟩
          · rintro ⟨_, _, _, e⟩; exact e.symm
        · rw [if_neg hneg]
          have hneg2 : ¬ tetromino.posY < 0 := by omega
          rw [lockPiece_eq]
          constructor
          · intro e
            cases hc : cementify { tetromino with posY := tetromino.posY + 1 - 1 }
                ({ game with speedCounter := 0 } : Game).field with
            | none => rw [hc] at e; exact absurd e (by simp)
            | some c => rw [hc] at e; exact absurd e (by simp)
          · rintro ⟨_, _, h3, _⟩; exact absurd h3 hneg2
  · rw [if_neg hdue]
    have hdue2 : ¬ (pushDown = true ∨ game.speedCounter + 1 = game.movementThreshold) :=
      fun k => hdue (hdueiff.2 k)
    constructor
    · intro e; exact absurd e (by simp)
    · rintro ⟨k, _⟩; exact absurd k hdue2

theorem descentDue_iff (game : Game) (keys : Keys) :
    descentDue game keys = true ↔
      (keys.down = true ∨ game.speedCounter + 1 = game.movementThreshold) := by
  simp [descentDue]

theorem posY_restored (tetromino : ActiveTetromino) :
    ({ tetromino with posY := tetromino.posY + 1 - 1 } : ActiveTetromino) = tetromino := by
  obtain ⟨kind, posX, posY, rotation, shape⟩ := tetromino
  simp

/-- The two ways a tick ends in game over. -/
theorem tick_gameOver_cases (game : Game) (keys : Keys) (rand : Nat) (over : Game) :
    tick game keys rand = .gameOver over ↔
      (doesPieceFit (spawn game.currentTetromino rand) game.field = some false ∧
        over = { game with currentTetromino := some (spawn game.currentTetromino rand) }) ∨
      (doesPieceFit (spawn game.currentTetromino rand) game.field = some true ∧
        ∃ rotated isRotating moved isTranslating,
          rotatePhase game keys (spawn game.currentTetromino rand)
            = some (rotated, isRotating) ∧
          translatePhase game keys rotated = some (moved, isTranslating) ∧
          descentDue game keys = true ∧
          doesPieceFit { moved with posY := moved.posY + 1 } game.field = some false ∧
          moved.posY < 0 ∧
          over = { game with
            currentTetromino := some (spawn game.currentTetromino rand),
            isRotating := isRotating, isTranslating := isTranslating,
            speedCounter := 0 }) := by
  rw [tick_eq]
  cases hf : doesPieceFit (spawn game.currentTetromino rand) game.field with
  | none => simp
  | some b =>
    cases b with
    | false =>
      simp only [Outcome.gameOver.injEq]
      constructor
      · intro e; exact Or.inl ⟨trivial, e.symm⟩
      · rintro (⟨_, e⟩ | ⟨k, _⟩)
        · exact e.symm
        · exact absurd k (by simp)
    | true =>
      simp only
      cases hr : rotatePhase game keys (spawn game.currentTetromino rand) with
      | none => simp
      | some rot =>
        obtain ⟨rotated, isRotating⟩ := rot
        simp only
        cases ht : translatePhase game keys rotated with
        | none =>
          constructor
          · intro e; exact absurd e (by simp)
          · rintro (⟨k, _⟩ | ⟨_, r2, i2, m2, t2, e1, e2, _⟩)
            · exact absurd k (by simp)
            · simp only [Option.some.injEq, Prod.mk.injEq] at e1
              rw [← e1.1, ht] at e2
              exact absurd e2 (by simp)
        | some mv =>
          obtain ⟨moved, isTranslating⟩ := mv
          simp only
          rw [descend_gameOver_iff]
          constructor
          · rintro ⟨h1, h2, h3, h4⟩
            right
            exact ⟨trivial, rotated, isRotating, moved, isTranslating, rfl, ht,
              (descentDue_iff game keys).2 h1, h2, h3, h4⟩
          · rintro (⟨k, _⟩ | ⟨_, r2, i2, m2, t2, e1, e2, h1, h2, h3, h4⟩)
            · exact absurd k (by simp)
            · simp only [Option.some.injEq, Prod.mk.injEq] at e1
              obtain ⟨e1a, e1b⟩ := e1
              subst e1a e1b
              rw [ht] at e2
              simp only [Option.some.injEq, Prod.mk.injEq] at e2
              obtain ⟨e2a, e2b⟩ := e2
              subst e2a e2b
              exact ⟨(descentDue_iff game keys).1 h1, h2, h3, h4⟩

theorem tick_gameOver_frame (game : Game) (keys : Keys) (rand : Nat) (over : Game)
    (h : tick game keys rand = .gameOver over) :
    over.field = game.field ∧ over.score = game.score ∧
      over.placedPiecesCounter = game.placedPiecesCounter ∧
      over.movementThreshold = game.movementThreshold := by
  rcases (tick_gameOver_cases game keys rand over).1 h with
    ⟨_, e⟩ | ⟨_, _, _, _, _, _, _, _, _, _, e⟩ <;> rw [e] <;> exact ⟨rfl, rfl, rfl, rfl⟩

/-- A failed descent with the piece inside the field locks it. -/
theorem tick_locks (game : Game) (keys : Keys) (rand : Nat)
    (rotated moved : ActiveTetromino) (isRotating isTranslating : Bool)
    (cemented : List Char)
    (hfit : doesPieceFit (spawn game.currentTetromino rand) game.field = some true)
    (hrot : rotatePhase game keys (spawn game.currentTetromino rand)
      = some (rotated, isRotating))
    (hmove : translatePhase game keys rotated = some (moved, isTranslating))
    (hdue : descentDue game keys = true)
    (hdrop : doesPieceFit { moved with posY := moved.posY + 1 } game.field = some false)
    (hrow : 0 ≤ moved.posY)
    (hcem : cementify moved game.field = some cemented) :
    tick game keys rand =
      .running (afterLock
        { game with
          currentTetromino := some (spawn game.currentTetromino rand),
          isRotating := isRotating, isTranslating := isTranslating, speedCounter := 0 }
        cemented) := by
  rw [tick_eq, hfit]
  simp only [hrot, hmove]
  rw [descend_eq]
  have hdue2 : keys.down = true ∨
      (if keys.down = true then game.speedCounter else game.speedCounter + 1)
        = game.movementThreshold := by
    rcases (descentDue_iff game keys).1 hdue with k | k
    · exact Or.inl k
    · by_cases hd : keys.down = true
      · exact Or.inl hd
      · right; simp only [hd]; exact k
  simp only [hdrop]
  rw [if_pos hdue2, if_neg (by omega), posY_restored, lockPiece_eq]
  simp only [hcem]

/-! ## Score and speed -/

theorem lockScore_eq (rows : List Nat) :
    lockScore rows = 25 + (if rows.length = 0 then 0 else 100 * 2 ^ rows.length) := by
  unfold lockScore
  cases rows with
  | nil => simp
  | cons a rest =>
    simp only [List.isEmpty_cons, List.length_cons]
    have : ¬ (rest.length + 1 = 0) := by omega
    rw [if_neg this]
    push_cast
    simp
    ring

theorem tmod_ten (n : Int) (h : 0 ≤ n) : Int.tmod n nthPieceSpeedup = n % 10 :=
  Int.tmod_eq_emod h (by decide)

theorem lockScore_pos (rows : List Nat) : 25 ≤ lockScore rows := by
  rw [lockScore_eq]
  by_cases h : rows.length = 0
  · rw [if_pos h]; omega
  · rw [if_neg h]
    have : (0 : Int) ≤ 100 * 2 ^ rows.length := by positivity
    omega

theorem lockScore_values (rows : List Nat) :
    (rows.length = 0 → lockScore rows = 25) ∧ (rows.length = 1 → lockScore rows = 225) ∧
    (rows.length = 2 → lockScore rows = 425) ∧ (rows.length = 3 → lockScore rows = 825) ∧
    (rows.length = 4 → lockScore rows = 1625) := by
  rw [lockScore_eq]
  refine ⟨?_, ?_, ?_, ?_, ?_⟩ <;> intro h <;> rw [h] <;> decide

/-- C11: scoring.  A lock (a `cementify` that completes) adds to the score exactly
`25 + bonus`, where the bonus is 0 when the scan reports no row and `100 * 2^n` when it
reports `n > 0` rows: 25, 225, 425, 825, 1625 for 0, 1, 2, 3, 4 rows.  A tick that goes
on leaves the score as it was or adds the amount of a lock, so the score never
decreases, and a tick that ends the game leaves it as it was.  (The score is an
unbounded integer here.) -/
theorem lock_adds_score (game : Game) (tetromino : ActiveTetromino) (cemented : List Char)
    (hc : cementify tetromino game.field = some cemented) :
    lockPiece game tetromino = .running (afterLock game cemented) ∧
    (afterLock game cemented).score
      = game.score + 25 +
        (if (scanCompletedRows cemented).1.length = 0 then 0
          else 100 * 2 ^ (scanCompletedRows cemented).1.length) ∧
    (∀ rows : List Nat,
      (rows.length = 0 → lockScore rows = 25) ∧ (rows.length = 1 → lockScore rows = 225) ∧
      (rows.length = 2 → lockScore rows = 425) ∧ (rows.length = 3 → lockScore rows = 825) ∧
      (rows.length = 4 → lockScore rows = 1625)) ∧
    (∀ keys rand next, tick game keys rand = .running next →
      (next.score = game.score ∨
        ∃ c, next.score = game.score + lockScore (scanCompletedRows c).1) ∧
      game.score ≤ next.score) ∧
    (∀ keys rand over, tick game keys rand = .gameOver over → over.score = game.score) := by
  refine ⟨?_, ?_, lockScore_values, ?_, ?_⟩
  · rw [lockPiece_eq, hc]
  · show game.score + lockScore (scanCompletedRows cemented).1 = _
    rw [lockScore_eq]
    omega
  · intro keys rand next h
    rcases tick_running game next keys rand h with ⟨_, _, h3, _, _⟩ | ⟨c, _, _, _, h4⟩
    · exact ⟨Or.inl h3, by omega⟩
    · refine ⟨Or.inr ⟨c, h4⟩, ?_⟩
      have := lockScore_pos (scanCompletedRows c).1
      omega
  · intro keys rand over h
    exact (tick_gameOver_frame game keys rand over h).2.1

theorem cementify_line_on_floor :
    cementify (mkPiece .Line 4 13 0) initialGame.field = some lineLockedField := by decide!

theorem lock_adds_score_witness :
    lockPiece initialGame (mkPiece .Line 4 13 0)
      = .running (afterLock initialGame lineLockedField) ∧
    (afterLock initialGame lineLockedField).score
      = initialGame.score + 25 +
        (if (scanCompletedRows lineLockedField).1.length = 0 then 0
          else 100 * 2 ^ (scanCompletedRows lineLockedField).1.length) :=
  have h := lock_adds_score initialGame (mkPiece .Line 4 13 0) lineLockedField
    cementify_line_on_floor
  ⟨h.1, h.2.1⟩

/-- The speed ramp as an invariant of the loop. -/
theorem speed_ramp_invariant (game : Game) (h : Reachable game) :
    0 ≤ game.placedPiecesCounter ∧
    game.movementThreshold = max 2 (20 - game.placedPiecesCounter / 10) := by
  induction h with
  | start => decide
  | step game next keys rand _ htick ih =>
    obtain ⟨ih0, ih1⟩ := ih
    rcases tick_running game next keys rand htick with
      ⟨_, _, _, h4, h5⟩ | ⟨_, _, h2, h3, _⟩
    · rw [h4, h5]; exact ⟨ih0, ih1⟩
    · rw [h2, h3, tmod_ten _ (by omega)]
      refine ⟨by omega, ?_⟩
      by_cases hc : (game.placedPiecesCounter + 1) % 10 = 0 ∧ game.movementThreshold > 2
      · rw [if_pos hc]; omega
      · rw [if_neg hc]; omega

/-- C12: the speed ramp.  In every state reachable from the start (gravity period 20,
no piece placed) the gravity period `movementThreshold` equals
`max(2, 20 - floor(n / 10))` for `n = placedPiecesCounter`, the number of locked pieces:
it is 20 at `n = 9`, 19 at `n = 10`, and never below 2.  The counter `n` goes up by one
on a tick that locks a piece and stays on every other tick that goes on. -/
theorem speed_ramp (game : Game) (h : Reachable game) :
    0 ≤ game.placedPiecesCounter ∧
    game.movementThreshold = max 2 (20 - game.placedPiecesCounter / 10) ∧
    2 ≤ game.movementThreshold ∧
    (game.placedPiecesCounter = 9 → game.movementThreshold = 20) ∧
    (game.placedPiecesCounter = 10 → game.movementThreshold = 19) ∧
    (∀ keys rand next, tick game keys rand = .running next →
      (next.currentTetromino = none ∧
        next.placedPiecesCounter = game.placedPiecesCounter + 1) ∨
      ((∃ stored, next.currentTetromino = some stored) ∧
        next.placedPiecesCounter = game.placedPiecesCounter ∧
        next.movementThreshold = game.movementThreshold)) := by
  obtain ⟨h0, h1⟩ := speed_ramp_invariant game h
  refine ⟨h0, h1, by omega, by omega, by omega, ?_⟩
  intro keys rand next htick
  rcases tick_running game next keys rand htick with
    ⟨h1, _, _, h4, h5⟩ | ⟨_, h1, h2, _, _⟩
  · exact Or.inr ⟨h1, h4, h5⟩
  · exact Or.inl ⟨h1, h2⟩

theorem reachable_lockOnBorderAfter : Reachable lockOnBorderAfter :=
  Reachable.step _ _ _ _
    (reachable_runTicks _ _ _ Reachable.start lockOnBorder_run) lockOnBorder_tick

theorem speed_ramp_witness :
    0 ≤ lockOnBorderAfter.placedPiecesCounter ∧
    lockOnBorderAfter.movementThreshold
      = max 2 (20 - lockOnBorderAfter.placedPiecesCounter / 10) ∧
    2 ≤ lockOnBorderAfter.movementThreshold :=
  have h := speed_ramp lockOnBorderAfter reachable_lockOnBorderAfter
  ⟨h.1, h.2.1, h.2.2.1⟩

/-! ## The lock of a fitting pose inside a tick -/

/-- A fit test that returned `true` has read every mask cell of the list. -/
theorem doesPieceFitFrom_reads (t : ActiveTetromino) (field : List Char)
    (cells : List (Nat × Nat)) (h : doesPieceFitFrom t field cells = some true) :
    ∀ c ∈ cells, c.2 * 4 + c.1 < t.shape.length := by
  induction cells with
  | nil => intro c hc; simp at hc
  | cons a rest ih =>
    obtain ⟨i, j⟩ := a
    simp only [doesPieceFitFrom] at h
    cases hs : wstringAt t.shape ((j * tetrominoWidth + i : Nat) : Int) with
    | none => rw [hs] at h; exact absurd h (by simp)
    | some cell =>
      rw [hs] at h
      simp only at h
      have hrest : doesPieceFitFrom t field rest = some true := by
        by_cases hocc : cell = emptyTetrominoPixel
        · rw [if_pos hocc] at h; exact h
        · rw [if_neg hocc] at h
          by_cases hrow : t.posY + (j : Int) < 0
          · rw [if_pos hrow] at h; exact h
          · rw [if_neg hrow] at h
            cases hf : wstringAt field (fieldIndex (t.posX + (i : Int)) (t.posY + (j : Int))) with
            | none => rw [hf] at h; exact absurd h (by simp)
            | some fc =>
              rw [hf] at h
              simp only at h
              by_cases hfc : fc = emptyCell
              · rw [if_pos hfc] at h; exact h
              · rw [if_neg hfc] at h
                exact absurd h (by simp)
      intro c hc
      rcases List.mem_cons.1 hc with e | e
      · subst e
        have := (wstringAt_eq_some _ _ _ hs).2.1
        simp only [tetrominoWidth] at this
        simp only
        omega
      · exact ih hrest c e

/-- A piece for which the fit test returns `true` has a mask of at least 16 cells. -/
theorem fit_shape_length (t : ActiveTetromino) (field : List Char)
    (h : doesPieceFit t field = some true) : 16 ≤ t.shape.length := by
  have := doesPieceFitFrom_reads t field fitOrder h (3, 3)
    ((mem_fitOrder (3, 3)).2 ⟨by decide, by decide⟩)
  simp only at this
  omega

/-- Locking a pose that fits, with its top row inside the field: `cementify` completes,
every cell under an occupied mask cell was Empty and holds the kind letter afterwards,
and every other cell is as before. -/
theorem cementify_of_fit (t : ActiveTetromino) (field : List Char) (hpos : 0 ≤ t.posY)
    (hfit : doesPieceFit t field = some true) :
    ∃ cemented, cementify t field = some cemented ∧
      (∀ i j, i < 4 → j < 4 → maskCell t.shape i j ≠ emptyTetrominoPixel →
        cellAt field (fieldIndex (t.posX + (i : Int)) (t.posY + (j : Int))).toNat
          = emptyCell ∧
        cellAt cemented (fieldIndex (t.posX + (i : Int)) (t.posY + (j : Int))).toNat
          = kindLetter t.type) ∧
      (∀ n : Nat,
        (∀ i j, i < 4 → j < 4 → maskCell t.shape i j ≠ emptyTetrominoPixel →
          fieldIndex (t.posX + (i : Int)) (t.posY + (j : Int)) ≠ (n : Int)) →
        cellAt cemented n = cellAt field n) := by
  have hshape := fit_shape_length t field hfit
  have hE : ∀ c ∈ cementOrder, maskCell t.shape c.1 c.2 ≠ emptyTetrominoPixel →
      0 ≤ fieldIndex (t.posX + (c.1 : Int)) (t.posY + (c.2 : Int)) ∧
      fieldIndex (t.posX + (c.1 : Int)) (t.posY + (c.2 : Int)) < field.length ∧
      cellAt field (fieldIndex (t.posX + (c.1 : Int)) (t.posY + (c.2 : Int))).toNat
        = emptyCell := by
    intro c hc hocc
    have hc4 := (mem_cementOrder c).1 hc
    have hread := doesPieceFitFrom_true t field hshape fitOrder
      (fun d hd => (mem_fitOrder d).1 hd) hfit c ((mem_fitOrder c).2 hc4)
      ⟨hocc, by omega⟩
    exact wstringAt_eq_some _ _ _ hread
  obtain ⟨w, hw, _, hwcell⟩ := cementifyFrom_spec t hshape cementOrder
    (fun c hc => (mem_cementOrder c).1 hc) field
    (fun c hc hocc => ⟨(hE c hc hocc).1, (hE c hc hocc).2.1⟩)
  refine ⟨w, hw, ?_, ?_⟩
  · intro i j hi hj hocc
    have hc := (mem_cementOrder (i, j)).2 ⟨hi, hj⟩
    obtain ⟨h0, _, hcell⟩ := hE (i, j) hc hocc
    refine ⟨hcell, ?_⟩
    rw [hwcell, if_pos]
    refine ⟨(i, j), hc, hocc, ?_⟩
    simp only at h0 ⊢
    omega
  · intro n hn
    rw [hwcell, if_neg]
    rintro ⟨c, hc, hocc, he⟩
    have hc4 := (mem_cementOrder c).1 hc
    exact hn c.1 c.2 hc4.1 hc4.2 hocc he

/-- From rotation index 0, 1 or 2 the rollback gives the piece back. -/
theorem rotate_rollback_restores (t : ActiveTetromino) (hs : t.shape = getShape t)
    (h0 : 0 ≤ t.rotation) (h2 : t.rotation ≤ 2) : rotate (rotate t true) false = t := by
  obtain ⟨kind, posX, posY, rotation, shape⟩ := t
  simp only at h0 h2 hs
  rw [getShape_eq_shapeOf] at hs
  simp only at hs
  have hmem : rotation ∈ [(0 : Int), 1, 2] := by
    have : rotation = 0 ∨ rotation = 1 ∨ rotation = 2 := by omega
    rcases this with h | h | h <;> simp [h]
  have hr := (rollback_closed kind).2.2 rotation hmem
  simp only [rotate_eq, hr, hs]

/-- The piece after the rotate block fits when the piece before it did, unless a
rotation attempt was rejected and rolled back from a pose the rollback does not
restore. -/
theorem rotatePhase_fits (game : Game) (keys : Keys) (t rotated : ActiveTetromino)
    (isRotating : Bool) (hfit : doesPieceFit t game.field = some true)
    (h : rotatePhase game keys t = some (rotated, isRotating))
    (hok : rotateFires game keys = false ∨
      doesPieceFit (rotate t true) game.field = some true ∨
      (t.shape = getShape t ∧ 0 ≤ t.rotation ∧ t.rotation ≤ 2)) :
    doesPieceFit rotated game.field = some true := by
  unfold rotatePhase at h
  by_cases hz : keys.z = true
  · rw [if_pos hz] at h
    by_cases hl : (!game.isRotating) = true
    · rw [if_pos hl] at h
      have hfires : rotateFires game keys = true := by
        simp only [rotateFires, hz, hl, Bool.and_self]
      unfold rotateAttempt at h
      simp only at h
      cases hturn : doesPieceFit (rotate t true) game.field with
      | none => rw [hturn] at h; exact absurd h (by simp)
      | some b =>
        rw [hturn] at h
        cases b with
        | true =>
          simp only [Option.map_some', Option.some.injEq, Prod.mk.injEq] at h
          rw [← h.1]; exact hturn
        | false =>
          simp only [Option.map_some', Option.some.injEq, Prod.mk.injEq] at h
          rcases hok with k | k | ⟨k1, k2, k3⟩
          · rw [hfires] at k; exact absurd k (by simp)
          · rw [hturn] at k; exact absurd k (by simp)
          · rw [← h.1, rotate_rollback_restores t k1 k2 k3]; exact hfit
    · rw [if_neg hl] at h
      simp only [Option.some.injEq, Prod.mk.injEq] at h
      rw [← h.1]; exact hfit
  · rw [if_neg hz] at h
    simp only [Option.some.injEq, Prod.mk.injEq] at h
    rw [← h.1]; exact hfit

theorem posX_restored (t : ActiveTetromino) (dx : Int) :
    ({ ({ t with posX := t.posX + dx } : ActiveTetromino) with
      posX := ({ t with posX := t.posX + dx } : ActiveTetromino).posX - dx }
        : ActiveTetromino) = t := by
  obtain ⟨kind, posX, posY, rotation, shape⟩ := t
  simp

/-- The piece after the move block fits when the piece before it did. -/
theorem translatePhase_fits (game : Game) (keys : Keys) (t moved : ActiveTetromino)
    (isTranslating : Bool) (hfit : doesPieceFit t game.field = some true)
    (h : translatePhase game keys t = some (moved, isTranslating)) :
    doesPieceFit moved game.field = some true := by
  unfold translatePhase at h
  by_cases hx : xor keys.left keys.right = true
  · rw [if_pos hx] at h
    by_cases hl : (!game.isTranslating) = true
    · rw [if_pos hl] at h
      unfold moveAttempt at h
      simp only at h
      cases hm : doesPieceFit
          { t with posX := t.posX + (if keys.left = true then -1 else 1) } game.field with
      | none => rw [hm] at h; exact absurd h (by simp)
      | some b =>
        rw [hm] at h
        cases b with
        | true =>
          simp only [Option.map_some', Option.some.injEq, Prod.mk.injEq] at h
          rw [← h.1]; exact hm
        | false =>
          simp only [Option.map_some', Option.some.injEq, Prod.mk.injEq] at h
          rw [← h.1, posX_restored]; exact hfit
    · rw [if_neg hl] at h
      simp only [Option.some.injEq, Prod.mk.injEq] at h
      rw [← h.1]; exact hfit
  · rw [if_neg hx] at h
    simp only [Option.some.injEq, Prod.mk.injEq] at h
    rw [← h.1]; exact hfit

/-- The tick of a failed descent with the piece inside the field is the lock. -/
theorem tick_runs_lock (game : Game) (keys : Keys) (rand : Nat)
    (rotated moved : ActiveTetromino) (isRotating isTranslating : Bool)
    (hfit : doesPieceFit (spawn game.currentTetromino rand) game.field = some true)
    (hrot : rotatePhase game keys (spawn game.currentTetromino rand)
      = some (rotated, isRotating))
    (hmove : translatePhase game keys rotated = some (moved, isTranslating))
    (hdue : descentDue game keys = true)
    (hdrop : doesPieceFit { moved with posY := moved.posY + 1 } game.field = some false)
    (hrow : 0 ≤ moved.posY) :
    tick game keys rand =
      lockPiece
        { game with
          currentTetromino := some (spawn game.currentTetromino rand),
          isRotating := isRotating, isTranslating := isTranslating, speedCounter := 0 }
        moved := by
  rw [tick_eq, hfit]
  simp only [hrot, hmove]
  rw [descend_eq]
  have hdue2 : keys.down = true ∨
      (if keys.down = true then game.speedCounter else game.speedCounter + 1)
        = game.movementThreshold := by
    rcases (descentDue_iff game keys).1 hdue with k | k
    · exact Or.inl k
    · by_cases hd : keys.down = true
      · exact Or.inl hd
      · right; simp only [hd]; exact k
  simp only [hdrop]
  rw [if_pos hdue2, if_neg (by omega), posY_restored]

/-- A scan that reports no row leaves the field as it was. -/
theorem afterLock_field_no_rows (game : Game) (cemented : List Char)
    (h : (scanCompletedRows cemented).1 = []) : (afterLock game cemented).field = cemented := by
  have h2 : (scanCompletedRows cemented).2 = cemented := by
    rw [scanCompletedRows_eq] at h ⊢
    simp only at h ⊢
    rw [h]
    rfl
  simp only [afterLock, h, h2, List.length_nil, gt_iff_lt, lt_self_iff_false, if_false]

/-! ## Game over, stated for the claim -/

/-- C14: the game-over conditions.  A tick ends the game if and only if either the
piece of the start of the tick (stored or freshly spawned) fails the fit test, or it
fits, a descent is due (Down pressed or the counter reaches the gravity period), the
pose one row lower does not fit and the row of the piece is negative.  In both cases
field, score and counters are as before the tick.  When the descent fails with the row
at or below the top, the tick does not end the game: it is the lock of the piece.  If
the piece was not left unfit by a rejected rotation of this tick (no rotate attempt, an
accepted one, or a rollback from index 0, 1 or 2 of a piece that carried the mask of
`getShape`), it fits the field, and for a piece
that fits `cementify` completes: every cell under an occupied mask cell was Empty and
now holds the kind letter, every other cell is as before, the loop goes on with no
piece stored, one more piece counted, the score of the lock added, and the field is the
cemented one after the scan and the row shift (the cemented one itself when no row is
complete); the whole next state is the one `lockPiece` computes (`afterLock`). -/
theorem gameOver_conditions (game : Game) (keys : Keys) (rand : Nat) (over : Game) :
    (tick game keys rand = .gameOver over ↔
      (doesPieceFit (spawn game.currentTetromino rand) game.field = some false ∧
        over = { game with currentTetromino := some (spawn game.currentTetromino rand) }) ∨
      (doesPieceFit (spawn game.currentTetromino rand) game.field = some true ∧
        ∃ rotated isRotating moved isTranslating,
          rotatePhase game keys (spawn game.currentTetromino rand)
            = some (rotated, isRotating) ∧
          translatePhase game keys rotated = some (moved, isTranslating) ∧
          descentDue game keys = true ∧
          doesPieceFit { moved with posY := moved.posY + 1 } game.field = some false ∧
          moved.posY < 0 ∧
          over = { game with
            currentTetromino := some (spawn game.currentTetromino rand),
            isRotating := isRotating, isTranslating := isTranslating,
            speedCounter := 0 })) ∧
    (tick game keys rand = .gameOver over →
      over.field = game.field ∧ over.score = game.score ∧
      over.placedPiecesCounter = game.placedPiecesCounter) ∧
    (∀ rotated isRotating moved isTranslating,
      doesPieceFit (spawn game.currentTetromino rand) game.field = some true →
      rotatePhase game keys (spawn game.currentTetromino rand)
        = some (rotated, isRotating) →
      translatePhase game keys rotated = some (moved, isTranslating) →
      descentDue game keys = true →
      doesPieceFit { moved with posY := moved.posY + 1 } game.field = some false →
      0 ≤ moved.posY →
      tick game keys rand =
        lockPiece
          { game with
            currentTetromino := some (spawn game.currentTetromino rand),
            isRotating := isRotating, isTranslating := isTranslating, speedCounter := 0 }
          moved ∧
      (∀ stopped, tick game keys rand ≠ .gameOver stopped) ∧
      ((rotateFires game keys = false ∨
          doesPieceFit (rotate (spawn game.currentTetromino rand) true) game.field
            = some true ∨
          ((spawn game.currentTetromino rand).shape
              = getShape (spawn game.currentTetromino rand) ∧
            0 ≤ (spawn game.currentTetromino rand).rotation ∧
            (spawn game.currentTetromino rand).rotation ≤ 2)) →
        doesPieceFit moved game.field = some true) ∧
      (doesPieceFit moved game.field = some true →
        ∃ cemented next, cementify moved game.field = some cemented ∧
          (∀ i j, i < 4 → j < 4 → maskCell moved.shape i j ≠ emptyTetrominoPixel →
            cellAt game.field
              (fieldIndex (moved.posX + (i : Int)) (moved.posY + (j : Int))).toNat
                = emptyCell ∧
            cellAt cemented
              (fieldIndex (moved.posX + (i : Int)) (moved.posY + (j : Int))).toNat
                = kindLetter moved.type) ∧
          (∀ n : Nat,
            (∀ i j, i < 4 → j < 4 → maskCell moved.shape i j ≠ emptyTetrominoPixel →
              fieldIndex (moved.posX + (i : Int)) (moved.posY + (j : Int)) ≠ (n : Int)) →
            cellAt cemented n = cellAt game.field n) ∧
          tick game keys rand = .running next ∧
          next =
            afterLock
              { game with
                currentTetromino := some (spawn game.currentTetromino rand),
                isRotating := isRotating, isTranslating := isTranslating,
                speedCounter := 0 }
              cemented ∧
          next.field =
            (if (scanCompletedRows cemented).1.length > 0
              then shiftRowsDown (scanCompletedRows cemented).2 (scanCompletedRows cemented).1
              else (scanCompletedRows cemented).2) ∧
          ((scanCompletedRows cemented).1 = [] → next.field = cemented) ∧
          next.currentTetromino = none ∧
          next.placedPiecesCounter = game.placedPiecesCounter + 1 ∧
          next.score = game.score + lockScore (scanCompletedRows cemented).1)) := by
  refine ⟨tick_gameOver_cases game keys rand over, ?_, ?_⟩
  · intro h
    have := tick_gameOver_frame game keys rand over h
    exact ⟨this.1, this.2.1, this.2.2.1⟩
  · intro rotated isRotating moved isTranslating h1 h2 h3 h4 h5 h6
    have hlock := tick_runs_lock game keys rand rotated moved isRotating isTranslating
      h1 h2 h3 h4 h5 h6
    refine ⟨hlock, ?_, ?_, ?_⟩
    · intro stopped hstop
      rcases (tick_gameOver_cases game keys rand stopped).1 hstop with
        ⟨k, _⟩ | ⟨_, r, ir, m, it, e1, e2, _, _, e5, _⟩
      · rw [h1] at k; exact absurd k (by simp)
      · rw [h2] at e1
        simp only [Option.some.injEq, Prod.mk.injEq] at e1
        rw [← e1.1, h3] at e2
        simp only [Option.some.injEq, Prod.mk.injEq] at e2
        rw [← e2.1] at e5
        omega
    · intro hok
      exact translatePhase_fits game keys rotated moved isTranslating
        (rotatePhase_fits game keys _ rotated isRotating h1 h2 hok) h3
    · intro hmoved
      obtain ⟨cemented, hc, hcells, hframe⟩ := cementify_of_fit moved game.field h6 hmoved
      refine ⟨cemented,
        afterLock
          { game with
            currentTetromino := some (spawn game.currentTetromino rand),
            isRotating := isRotating, isTranslating := isTranslating, speedCounter := 0 }
          cemented,
        hc, hcells, hframe, ?_, rfl, ?_, ?_, ?_, ?_, ?_⟩
      · rw [hlock, lockPiece_eq]
        simp only [hc]
      · simp only [afterLock]
      · exact afterLock_field_no_rows _ cemented
      · simp only [afterLock]
      · simp only [afterLock]
      · simp only [afterLock]

theorem rollbackStored_unfit :
    doesPieceFit (spawn rollbackStored.currentTetromino 0) rollbackStored.field
      = some false := by decide!

/-! ## End-to-end drop of a Line piece -/

theorem drop_first_tick : tick initialGame dropKeys 0 = .running (dropState 1) := by
  decide!

theorem drop_middle_ticks : ∀ k ∈ List.range' 1 14,
    tick (dropState k) dropKeys 0 = .running (dropState (k + 1)) := by decide!

theorem drop_last_tick : tick (dropState 15) dropKeys 0 = .running lineLocked := by
  decide!

theorem drop_run :
    runTicks initialGame (List.replicate 16 (dropKeys, 0)) = .running lineLocked := by
  decide!

theorem drop_field_cells :
    (∀ row ∈ [13, 14, 15, 16], cellAt lineLocked.field (row * fieldWidth + 6) = 'A') ∧
    (∀ n, n < fieldPixels → n ∉ [13 * 12 + 6, 14 * 12 + 6, 15 * 12 + 6, 16 * 12 + 6] →
      cellAt lineLocked.field n = cellAt initialField n) ∧
    (scanCompletedRows lineLocked.field).1 = [] := by
  decide!

theorem drop_lock_pose :
    doesPieceFit (mkPiece .Line 4 14 0) initialField = some false ∧
    cementify (mkPiece .Line 4 13 0) initialField = some lineLocked.field := by
  decide!

/-- C15: the end-to-end drop.  From the initial state with a Line piece spawned
(`rand() % 7 = 0`) and only Down pressed on every tick: the first tick spawns the piece
at `(4, -2)` in rotation 0 and takes it to row -1, each of the next fourteen ticks takes
it one row lower, and the sixteenth tick, whose descent to row 14 fails, locks it at
row 13, its lowest cell in row 16.  The field then holds `A` in column 6, rows 13..16,
every other cell is as in the initial field, the scan reports no row, and the score
is 25. -/
theorem line_drops_to_floor :
    spawn initialGame.currentTetromino 0 = mkPiece .Line 4 (-2) 0 ∧
    tick initialGame dropKeys 0 = .running (dropState 1) ∧
    (∀ k ∈ List.range' 1 14, tick (dropState k) dropKeys 0 = .running (dropState (k + 1))) ∧
    doesPieceFit (mkPiece .Line 4 14 0) initialField = some false ∧
    tick (dropState 15) dropKeys 0 = .running lineLocked ∧
    runTicks initialGame (List.replicate 16 (dropKeys, 0)) = .running lineLocked ∧
    cementify (mkPiece .Line 4 13 0) initialField = some lineLocked.field ∧
    (mkPiece .Line 4 13 0).posY + 3 = 16 ∧
    (∀ row ∈ [13, 14, 15, 16], cellAt lineLocked.field (row * fieldWidth + 6) = 'A') ∧
    (∀ n, n < fieldPixels → n ∉ [13 * 12 + 6, 14 * 12 + 6, 15 * 12 + 6, 16 * 12 + 6] →
      cellAt lineLocked.field n = cellAt initialField n) ∧
    (scanCompletedRows lineLocked.field).1 = [] ∧
    lineLocked.score = 25 ∧ lineLocked.currentTetromino = none :=
  ⟨rfl, drop_first_tick, drop_middle_ticks, drop_lock_pose.1, drop_last_tick, drop_run,
    drop_lock_pose.2, rfl, drop_field_cells.1, drop_field_cells.2.1, drop_field_cells.2.2,
    rfl, rfl⟩

/-! ## Game over and lock, evaluated -/

theorem stack_run : runTicks lineLocked stackKeys = .running stackedToTop := by decide!

theorem reachable_stackedToTop : Reachable stackedToTop :=
  reachable_runTicks _ _ _ (reachable_runTicks _ _ _ Reachable.start drop_run) stack_run

theorem stacked_descent_blocked :
    doesPieceFit (spawn stackedToTop.currentTetromino 0) stackedToTop.field = some true ∧
    rotatePhase stackedToTop dropKeys (spawn stackedToTop.currentTetromino 0)
      = some (mkPiece .Line 4 (-2) 0, false) ∧
    translatePhase stackedToTop dropKeys (mkPiece .Line 4 (-2) 0)
      = some (mkPiece .Line 4 (-2) 0, false) ∧
    descentDue stackedToTop dropKeys = true ∧
    doesPieceFit { mkPiece .Line 4 (-2) 0 with posY := (mkPiece .Line 4 (-2) 0).posY + 1 }
      stackedToTop.field = some false ∧
    (mkPiece .Line 4 (-2) 0).posY < 0 := by decide!

theorem drop_lock_conditions :
    doesPieceFit (spawn (dropState 15).currentTetromino 0) (dropState 15).field
      = some true ∧
    rotatePhase (dropState 15) dropKeys (spawn (dropState 15).currentTetromino 0)
      = some (mkPiece .Line 4 13 0, false) ∧
    translatePhase (dropState 15) dropKeys (mkPiece .Line 4 13 0)
      = some (mkPiece .Line 4 13 0, false) ∧
    descentDue (dropState 15) dropKeys = true ∧
    doesPieceFit { mkPiece .Line 4 13 0 with posY := (mkPiece .Line 4 13 0).posY + 1 }
      (dropState 15).field = some false ∧
    0 ≤ (mkPiece .Line 4 13 0).posY ∧
    rotateFires (dropState 15) dropKeys = false := by decide!

theorem gameOver_conditions_witness :
    tick rollbackStored dropKeys 0 = .gameOver rollbackStored ∧
    Reachable stackedToTop ∧
    tick stackedToTop dropKeys 0
      = .gameOver { stackedToTop with currentTetromino := some (mkPiece .Line 4 (-2) 0) } ∧
    (∃ cemented next,
      cementify (mkPiece .Line 4 13 0) (dropState 15).field = some cemented ∧
      tick (dropState 15) dropKeys 0 = .running next ∧
      next.currentTetromino = none ∧
      next.placedPiecesCounter = (dropState 15).placedPiecesCounter + 1 ∧
      (∀ i j, i < 4 → j < 4 →
        maskCell (mkPiece .Line 4 13 0).shape i j ≠ emptyTetrominoPixel →
        cellAt cemented
          (fieldIndex ((mkPiece .Line 4 13 0).posX + (i : Int))
            ((mkPiece .Line 4 13 0).posY + (j : Int))).toNat
              = kindLetter (mkPiece .Line 4 13 0).type)) :=
  ⟨(gameOver_conditions rollbackStored dropKeys 0 rollbackStored).1.2
      (Or.inl ⟨rollbackStored_unfit, by decide!⟩),
    reachable_stackedToTop,
    (gameOver_conditions stackedToTop dropKeys 0
        { stackedToTop with currentTetromino := some (mkPiece .Line 4 (-2) 0) }).1.2
      (Or.inr ⟨stacked_descent_blocked.1, _, _, _, _, stacked_descent_blocked.2.1,
        stacked_descent_blocked.2.2.1, stacked_descent_blocked.2.2.2.1,
        stacked_descent_blocked.2.2.2.2.1, stacked_descent_blocked.2.2.2.2.2, by decide!⟩),
    have h := (gameOver_conditions (dropState 15) dropKeys 0 (dropState 15)).2.2
      (mkPiece .Line 4 13 0) false (mkPiece .Line 4 13 0) false
      drop_lock_conditions.1 drop_lock_conditions.2.1 drop_lock_conditions.2.2.1
      drop_lock_conditions.2.2.2.1 drop_lock_conditions.2.2.2.2.1
      drop_lock_conditions.2.2.2.2.2.1
    have hfit := h.2.2.1 (Or.inl drop_lock_conditions.2.2.2.2.2.2)
    match h.2.2.2 hfit with
    | ⟨cemented, next, hc, hcells, _, htick, _, _, _, hnone, hcount, _⟩ =>
      ⟨cemented, next, hc, htick, hnone, hcount,
        fun i j hi hj hocc => (hcells i j hi hj hocc).2⟩⟩

/-! ## A completed top row -/

theorem topRowFull_keeps_marker :
    topRowFull.length = fieldPixels ∧ BorderNonEmpty topRowFull ∧
    (∀ n, n < fieldPixels → cellAt topRowFull n ≠ completedLineCell) ∧
    (scanCompletedRows topRowFull).1 = [0] ∧
    shiftRowsDown (scanCompletedRows topRowFull).2 (scanCompletedRows topRowFull).1
      = (scanCompletedRows topRowFull).2 ∧
    (∀ x ∈ List.range' 1 10,
      cellAt (shiftRowsDown (scanCompletedRows topRowFull).2
        (scanCompletedRows topRowFull).1) (0 * fieldWidth + x) = completedLineCell) := by
  decide!

/-! ## A rejected rotation from index 3 -/

/-- C18: evaluation of a tick with a rejected rotation from index 3.  The state
`lockOnBorderBefore` is reachable and holds a LeftL piece in rotation 3 with the mask
of `getShape`, which fits.  A tick with only Z pressed does not lock and does not end
the game, and the piece it stores (rotation -1, rotation-0 mask, same position) does
not fit the field; the tick after it ends the game at its first fit test. -/
theorem rejected_rotation_stores_unfit_piece :
    Reachable lockOnBorderBefore ∧
    lockOnBorderBefore.currentTetromino = some (mkPiece .LeftL 4 14 3) ∧
    doesPieceFit (mkPiece .LeftL 4 14 3) lockOnBorderBefore.field = some true ∧
    tick lockOnBorderBefore rotateKeys 0 = .running rollbackStored ∧
    rollbackStored.field = lockOnBorderBefore.field ∧
    rollbackStored.currentTetromino
      = some (rotate (rotate (mkPiece .LeftL 4 14 3) true) false) ∧
    doesPieceFit (rotate (rotate (mkPiece .LeftL 4 14 3) true) false)
      rollbackStored.field = some false ∧
    tick rollbackStored ⟨false, false, false, false⟩ 0 = .gameOver rollbackStored := by
  refine ⟨reachable_runTicks _ _ _ Reachable.start lockOnBorder_run, by decide!, by decide!,
    by decide!, by decide!, by decide!, by decide!, by decide!⟩

/-! ## The key latches -/

theorem rotatePhase_eq (game : Game) (keys : Keys) (tetromino : ActiveTetromino) :
    rotatePhase game keys tetromino =
      if rotateFires game keys = true
      then (rotateAttempt tetromino game.field).map fun t => (t, true)
      else some (tetromino, if keys.z = true then false else game.isRotating) := by
  unfold rotatePhase rotateFires
  cases keys.z <;> cases game.isRotating <;> simp

theorem translatePhase_eq (game : Game) (keys : Keys) (tetromino : ActiveTetromino) :
    translatePhase game keys tetromino =
      if moveFires game keys = true
      then (moveAttempt tetromino (if keys.left = true then -1 else 1) game.field).map
        fun t => (t, true)
      else some (tetromino,
        if xor keys.left keys.right = true then false else game.isTranslating) := by
  unfold translatePhase moveFires
  cases xor keys.left keys.right <;> cases game.isTranslating <;> simp

theorem rotatePhase_latch (game : Game) (keys : Keys) (tetromino rotated : ActiveTetromino)
    (latch : Bool) (h : rotatePhase game keys tetromino = some (rotated, latch)) :
    latch = (if keys.z = true then !game.isRotating else game.isRotating) := by
  unfold rotatePhase at h
  cases hz : keys.z <;> cases hr : game.isRotating <;> simp [hz, hr] at h ⊢ <;>
    first
    | exact h.2
    | (obtain ⟨_, _, _, e⟩ := h; exact e)

theorem translatePhase_latch (game : Game) (keys : Keys)
    (tetromino moved : ActiveTetromino) (latch : Bool)
    (h : translatePhase game keys tetromino = some (moved, latch)) :
    latch = (if xor keys.left keys.right = true
      then !game.isTranslating else game.isTranslating) := by
  unfold translatePhase at h
  cases hz : xor keys.left keys.right <;> cases hr : game.isTranslating <;>
    simp [hz, hr] at h ⊢ <;>
    first
    | exact h.2
    | (obtain ⟨_, _, _, e⟩ := h; exact e)

theorem afterLock_latches (game : Game) (cemented : List Char) :
    (afterLock game cemented).isRotating = game.isRotating ∧
    (afterLock game cemented).isTranslating = game.isTranslating := by
  simp only [afterLock, and_self]

theorem descend_running_latches (game next : Game) (tetromino : ActiveTetromino)
    (pushDown : Bool) (h : descend game tetromino pushDown = .running next) :
    next.isRotating = game.isRotating ∧ next.isTranslating = game.isTranslating := by
  rcases descend_running game next tetromino pushDown h with
    ⟨_, _, _, _, _, h6, h7⟩ | ⟨cemented, _, e⟩
  · exact ⟨h6, h7⟩
  · rw [e]
    exact afterLock_latches _ cemented

theorem tick_running_latches (game next : Game) (keys : Keys) (rand : Nat)
    (h : tick game keys rand = .running next) :
    next.isRotating = (if keys.z = true then !game.isRotating else game.isRotating) ∧
    next.isTranslating = (if xor keys.left keys.right = true
      then !game.isTranslating else game.isTranslating) := by
  rw [tick_eq] at h
  cases hf : doesPieceFit (spawn game.currentTetromino rand) game.field with
  | none => rw [hf] at h; exact absurd h (by simp)
  | some b =>
    rw [hf] at h
    cases b with
    | false => exact absurd h (by simp)
    | true =>
      simp only at h
      cases hr : rotatePhase game keys (spawn game.currentTetromino rand) with
      | none => rw [hr] at h; exact absurd h (by simp)
      | some rot =>
        obtain ⟨rotated, isRotating⟩ := rot
        rw [hr] at h
        simp only at h
        cases ht : translatePhase game keys rotated with
        | none => rw [ht] at h; exact absurd h (by simp)
        | some mv =>
          obtain ⟨moved, isTranslating⟩ := mv
          rw [ht] at h
          simp only at h
          obtain ⟨h1, h2⟩ := descend_running_latches _ _ _ _ h
          rw [h1, h2]
          exact ⟨rotatePhase_latch _ _ _ _ _ hr, translatePhase_latch _ _ _ _ _ ht⟩

theorem heldRotate_first_tick :
    tick initialGame rotateKeys 3 = .running (heldRotate 1 1 true) := by decide!

/-- C13 as stated fails: with Z held on three consecutive ticks from the start (LeftL
piece, `rand() % 7 = 3`) the first tick turns the piece to rotation 1, the second only
clears the latch, and the third, although Z was pressed on the tick before, performs a
rotate attempt again and turns the piece to rotation 2.  Likewise with Left held the
piece moves from column 4 to 3 on the first tick and to 2 on the third. -/
theorem held_key_fires_again :
    tick initialGame rotateKeys 3 = .running (heldRotate 1 1 true) ∧
    tick (heldRotate 1 1 true) rotateKeys 3 = .running (heldRotate 2 1 false) ∧
    rotateKeys.z = true ∧ rotateFires (heldRotate 2 1 false) rotateKeys = true ∧
    tick (heldRotate 2 1 false) rotateKeys 3 = .running (heldRotate 3 2 true) ∧
    tick initialGame leftKeys 3 = .running (heldLeft 1 3 true) ∧
    tick (heldLeft 1 3 true) leftKeys 3 = .running (heldLeft 2 3 false) ∧
    xor leftKeys.left leftKeys.right = true ∧
    moveFires (heldLeft 2 3 false) leftKeys = true ∧
    tick (heldLeft 2 3 false) leftKeys 3 = .running (heldLeft 3 2 true) := by
  decide!

/-- C13 as amended: the latches gate the attempts.  The tick reaches the rotate attempt
exactly when Z is pressed and the latch `isRotating` is clear, and the move attempt
exactly when one of Left and Right is pressed and `isTranslating` is clear.  A tick
with the control pressed flips its latch and a tick without it leaves the latch as it
is.  So after a tick that made an attempt the next tick makes none, whatever the keys,
and over two consecutive ticks with the control pressed the latch comes back to its
value: a held key fires on every second tick. -/
theorem latch_gates_attempts (game : Game) (keys : Keys) (rand : Nat) (next : Game)
    (h : tick game keys rand = .running next) :
    (rotateFires game keys = true ↔ keys.z = true ∧ game.isRotating = false) ∧
    (moveFires game keys = true ↔
      xor keys.left keys.right = true ∧ game.isTranslating = false) ∧
    (∀ tetromino, rotatePhase game keys tetromino =
      if rotateFires game keys = true
      then (rotateAttempt tetromino game.field).map fun t => (t, true)
      else some (tetromino, if keys.z = true then false else game.isRotating)) ∧
    (∀ tetromino, translatePhase game keys tetromino =
      if moveFires game keys = true
      then (moveAttempt tetromino (if keys.left = true then -1 else 1) game.field).map
        fun t => (t, true)
      else some (tetromino,
        if xor keys.left keys.right = true then false else game.isTranslating)) ∧
    next.isRotating = (if keys.z = true then !game.isRotating else game.isRotating) ∧
    next.isTranslating = (if xor keys.left keys.right = true
      then !game.isTranslating else game.isTranslating) ∧
    (∀ keys2, rotateFires game keys = true → rotateFires next keys2 = false) ∧
    (∀ keys2, moveFires game keys = true → moveFires next keys2 = false) ∧
    (∀ keys2 rand2 next2, tick next keys2 rand2 = .running next2 →
      (keys.z = true → keys2.z = true → next2.isRotating = game.isRotating) ∧
      (xor keys.left keys.right = true → xor keys2.left keys2.right = true →
        next2.isTranslating = game.isTranslating)) := by
  obtain ⟨hr, ht⟩ := tick_running_latches game next keys rand h
  refine ⟨?_, ?_, rotatePhase_eq game keys, translatePhase_eq game keys, hr, ht,
    ?_, ?_, ?_⟩
  · simp [rotateFires]
  · simp [moveFires]
  · intro keys2 hf
    simp only [rotateFires, Bool.and_eq_true, Bool.not_eq_true'] at hf
    simp [rotateFires, hr, hf.1, hf.2]
  · intro keys2 hf
    simp only [moveFires, Bool.and_eq_true, Bool.not_eq_true'] at hf
    simp [moveFires, ht, hf.1, hf.2]
  · intro keys2 rand2 next2 h2
    obtain ⟨hr2, ht2⟩ := tick_running_latches next next2 keys2 rand2 h2
    constructor
    · intro hz hz2
      rw [hr2, hr]
      simp [hz, hz2]
    · intro hz hz2
      rw [ht2, ht]
      simp [hz, hz2]

theorem latch_gates_attempts_witness :
    (heldRotate 1 1 true).isRotating
      = (if rotateKeys.z = true then !initialGame.isRotating else initialGame.isRotating) ∧
    (∀ keys2, rotateFires initialGame rotateKeys = true →
      rotateFires (heldRotate 1 1 true) keys2 = false) :=
  have h := latch_gates_attempts initialGame rotateKeys 3 (heldRotate 1 1 true)
    heldRotate_first_tick
  ⟨h.2.2.2.2.1, h.2.2.2.2.2.2.1⟩

/-! ## Index safety -/

theorem leftWall_run : runTicks initialGame leftWallKeys = .running atLeftWall := by
  decide!

theorem floor_run : runTicks initialGame floorKeys = .running flatOnFloor := by
  decide!

/-- C19: index safety does not hold in play.  Two runs from the initial state end in
an uncaught `std::out_of_range` thrown by `.at` inside the fit test of a rotate attempt.
(1) Nine ticks with Left held (Down also on the first) take a Line piece to field
column 1 with its top in row -1, a pose that fits.  On the next tick, with Z pressed, the
rotated mask has its occupied cell `(0, 1)` in field row 0, column -1: the index is
`0 * 12 + (-1) = -1`, `.at` throws, and the tick ends in the exception.  One row lower
the same attempt computes index `1 * 12 + (-1) = 11`, reads the right border cell of
row 0 for a cell of row 1, is rejected and rolled back.
(2) Eighteen ticks lay a Line piece flat on the floor (row 16, columns 4..7), a pose that
fits.  On the next tick, with Z pressed, the rotated mask has its occupied cell `(1, 3)`
in field row 18: the index is `18 * 12 + 5 = 221`, past the 216 cells of the field,
`.at` throws, and the tick ends in the exception. -/
theorem rotate_at_left_wall_raises :
    runTicks initialGame leftWallKeys = .running atLeftWall ∧
    Reachable atLeftWall ∧
    (atLeftWall.currentTetromino = some (mkPiece .Line (-1) (-1) 0) ∧
      doesPieceFit (mkPiece .Line (-1) (-1) 0) atLeftWall.field = some true ∧
      maskCell (rotate (mkPiece .Line (-1) (-1) 0) true).shape 0 1 ≠ emptyTetrominoPixel ∧
      (rotate (mkPiece .Line (-1) (-1) 0) true).posY + 1 = 0 ∧
      fieldIndex ((rotate (mkPiece .Line (-1) (-1) 0) true).posX + 0)
        ((rotate (mkPiece .Line (-1) (-1) 0) true).posY + 1) = -1 ∧
      doesPieceFit (rotate (mkPiece .Line (-1) (-1) 0) true) atLeftWall.field = none ∧
      tick atLeftWall rotateKeys 0 = .outOfRange) ∧
    (doesPieceFit (mkPiece .Line (-1) 0 0) atLeftWall.field = some true ∧
      fieldIndex ((rotate (mkPiece .Line (-1) 0 0) true).posX + 0)
        ((rotate (mkPiece .Line (-1) 0 0) true).posY + 1) = 11 ∧
      cellAt atLeftWall.field 11 = borderCell ∧
      doesPieceFit (rotate (mkPiece .Line (-1) 0 0) true) atLeftWall.field = some false ∧
      rotateAttempt (mkPiece .Line (-1) 0 0) atLeftWall.field
        = some (mkPiece .Line (-1) 0 0)) ∧
    runTicks initialGame floorKeys = .running flatOnFloor ∧
    Reachable flatOnFloor ∧
    (flatOnFloor.currentTetromino = some (mkPiece .Line 4 15 1) ∧
      doesPieceFit (mkPiece .Line 4 15 1) flatOnFloor.field = some true ∧
      maskCell (rotate (mkPiece .Line 4 15 1) true).shape 1 3 ≠ emptyTetrominoPixel ∧
      fieldIndex ((rotate (mkPiece .Line 4 15 1) true).posX + 1)
        ((rotate (mkPiece .Line 4 15 1) true).posY + 3) = 221 ∧
      doesPieceFit (rotate (mkPiece .Line 4 15 1) true) flatOnFloor.field = none ∧
      tick flatOnFloor rotateKeys 0 = .outOfRange) := by
  refine ⟨leftWall_run, reachable_runTicks _ _ _ Reachable.start leftWall_run, by decide!,
    by decide!, floor_run, reachable_runTicks _ _ _ Reachable.start floor_run, by decide!⟩

/-- In a pose that fits a field with non-Empty borders, an occupied cell in columns
1..10 with row at or below the top is in a row above the border row. -/
theorem fitting_cell_row (t : ActiveTetromino) (field : List Char)
    (hshape : t.shape.length = 16) (hlen : field.length = 216)
    (hborder : BorderNonEmpty field) (hfit : doesPieceFit t field = some true)
    (i j : Nat) (hi : i < 4) (hj : j < 4)
    (hocc : maskCell t.shape i j ≠ emptyTetrominoPixel)
    (hcol : 1 ≤ t.posX + (i : Int) ∧ t.posX + (i : Int) ≤ 10)
    (hrow : 0 ≤ t.posY + (j : Int)) :
    t.posY + (j : Int) ≤ 16 ∧
    cellAt field (fieldIndex (t.posX + (i : Int)) (t.posY + (j : Int))).toNat
      = emptyCell := by
  have hread := doesPieceFitFrom_true t field hshape.ge fitOrder
    (fun c hc => (mem_fitOrder c).1 hc) hfit (i, j)
    ((mem_fitOrder (i, j)).2 ⟨hi, hj⟩) ⟨hocc, hrow⟩
  obtain ⟨h0, h1, hcell⟩ := wstringAt_eq_some _ _ _ hread
  refine ⟨?_, hcell⟩
  simp only [fieldIndex, fieldWidth] at h0 h1 hcell
  rw [hlen] at h1
  obtain ⟨r, hr⟩ := Int.eq_ofNat_of_zero_le hrow
  obtain ⟨c, hc⟩ := Int.eq_ofNat_of_zero_le (show 0 ≤ t.posX + (i : Int) by omega)
  rw [hr, hc] at hcell h1
  have hnat : ((r : Int) * ((12 : Nat) : Int) + (c : Int)).toNat = r * 12 + c := by omega
  rw [hnat] at hcell
  by_contra hgt
  have hr17 : r = 17 := by omega
  have hb := hborder (r * 12 + c)
    (by simp only [fieldPixels, fieldWidth, fieldHeight]; omega)
    (by
      simp only [isBorderIndex, fieldWidth, fieldHeight, Bool.or_eq_true, beq_iff_eq]
      right; omega)
  exact hb hcell

/-- A pose one step (sideways by at most one column, down by at most one row) away from
a fitting pose inside columns 1..10 is index safe, and the fit test on it returns. -/
theorem candidate_indexSafe (t q : ActiveTetromino) (field : List Char)
    (hshape : t.shape.length = 16) (hlen : field.length = 216)
    (hborder : BorderNonEmpty field) (hfit : doesPieceFit t field = some true)
    (hcols : ∀ i j, i < 4 → j < 4 → maskCell t.shape i j ≠ emptyTetrominoPixel →
      1 ≤ t.posX + (i : Int) ∧ t.posX + (i : Int) ≤ 10)
    (hqshape : q.shape = t.shape)
    (hdx : t.posX - 1 ≤ q.posX ∧ q.posX ≤ t.posX + 1)
    (hdy : t.posY ≤ q.posY ∧ q.posY ≤ t.posY + 1) :
    IndexSafe q ∧ (doesPieceFit q field = some true ∨ doesPieceFit q field = some false) := by
  have hsafe : IndexSafe q := by
    intro i j hi hj hocc hrow
    rw [hqshape] at hocc
    have hc := hcols i j hi hj hocc
    have hr : q.posY + (j : Int) ≤ 17 := by
      by_cases hrow0 : 0 ≤ t.posY + (j : Int)
      · have := (fitting_cell_row t field hshape hlen hborder hfit i j hi hj hocc hc hrow0).1
        omega
      · omega
    have hx : 0 ≤ q.posX + (i : Int) ∧ q.posX + (i : Int) ≤ 11 := by omega
    have := fieldIndex_inRange _ _ hx ⟨hrow, hr⟩
    exact ⟨hx.1, hx.2, hr, this.1, this.2⟩
  refine ⟨hsafe, ?_⟩
  exact (doesPieceFit_cases q field (by rw [hqshape]; exact hshape) hlen
    (fun i j hi hj hocc hrow => by
      have := hsafe i j hi hj hocc hrow
      exact ⟨this.2.2.2.1, this.2.2.2.2⟩)).1

/-- The part of index safety that holds: one step from a fitting pose inside the columns.
On a field of 216 cells with non-Empty borders, for a pose that fits and has all its
occupied mask cells (also those above the field top) in field columns 1..10: every
occupied cell with row `>= 0` is in a row `<= 16`; for the pose moved one column left,
one column right or one row down, every index `(posY + j) * 12 + (posX + i)` computed
for an occupied cell with row `>= 0` lies in 0..215 with column in 0..11 and row in
0..17, and the fit test on it returns without raising; and when `posY >= 0`,
`cementify` on the pose completes.  Rotation attempts and poses with an occupied cell
outside columns 1..10 are not covered. -/
theorem one_step_index_safety (t : ActiveTetromino) (field : List Char)
    (hshape : t.shape.length = tetrominoPixels) (hlen : field.length = fieldPixels)
    (hborder : BorderNonEmpty field) (hfit : doesPieceFit t field = some true)
    (hcols : ∀ i j, i < 4 → j < 4 → maskCell t.shape i j ≠ emptyTetrominoPixel →
      1 ≤ t.posX + (i : Int) ∧ t.posX + (i : Int) ≤ 10) :
    (∀ i j, i < 4 → j < 4 → maskCell t.shape i j ≠ emptyTetrominoPixel →
      0 ≤ t.posY + (j : Int) → t.posY + (j : Int) ≤ 16) ∧
    (IndexSafe { t with posX := t.posX + -1 } ∧
      (doesPieceFit { t with posX := t.posX + -1 } field = some true ∨
        doesPieceFit { t with posX := t.posX + -1 } field = some false)) ∧
    (IndexSafe { t with posX := t.posX + 1 } ∧
      (doesPieceFit { t with posX := t.posX + 1 } field = some true ∨
        doesPieceFit { t with posX := t.posX + 1 } field = some false)) ∧
    (IndexSafe { t with posY := t.posY + 1 } ∧
      (doesPieceFit { t with posY := t.posY + 1 } field = some true ∨
        doesPieceFit { t with posY := t.posY + 1 } field = some false)) ∧
    (0 ≤ t.posY → IndexSafe t ∧ ∃ written, cementify t field = some written) := by
  have hshape16 : t.shape.length = 16 := hshape
  have hlen216 : field.length = 216 := hlen
  refine ⟨?_, ?_, ?_, ?_, ?_⟩
  · intro i j hi hj hocc hrow
    exact (fitting_cell_row t field hshape16 hlen216 hborder hfit i j hi hj hocc
      (hcols i j hi hj hocc) hrow).1
  · exact candidate_indexSafe t _ field hshape16 hlen216 hborder hfit hcols rfl
      ⟨by simp only; omega, by simp only; omega⟩ ⟨by simp only; omega, by simp only; omega⟩
  · exact candidate_indexSafe t _ field hshape16 hlen216 hborder hfit hcols rfl
      ⟨by simp only; omega, by simp only; omega⟩ ⟨by simp only; omega, by simp only; omega⟩
  · exact candidate_indexSafe t _ field hshape16 hlen216 hborder hfit hcols rfl
      ⟨by simp only; omega, by simp only; omega⟩ ⟨by simp only; omega, by simp only; omega⟩
  · intro hpos
    have hsafe := (candidate_indexSafe t t field hshape16 hlen216 hborder hfit hcols rfl
      ⟨by omega, by omega⟩ ⟨by omega, by omega⟩).1
    refine ⟨hsafe, ?_⟩
    obtain ⟨w, hw, _, _⟩ := cementifyFrom_spec t hshape16.ge cementOrder
      (fun c hc => (mem_cementOrder c).1 hc) field
      (fun c hc hocc => by
        have hc4 := (mem_cementOrder c).1 hc
        have := hsafe c.1 c.2 hc4.1 hc4.2 hocc (by omega)
        rw [hlen216]
        exact ⟨this.2.2.2.1, this.2.2.2.2⟩)
    exact ⟨w, hw⟩

theorem line_on_floor_fits :
    doesPieceFit (mkPiece .Line 4 13 0) initialField = some true := by decide!

theorem initialField_borderNonEmpty : BorderNonEmpty initialField := by decide!

theorem one_step_index_safety_witness :
    IndexSafe { mkPiece .Line 4 13 0 with posY := (mkPiece .Line 4 13 0).posY + 1 } ∧
    (doesPieceFit { mkPiece .Line 4 13 0 with posY := (mkPiece .Line 4 13 0).posY + 1 }
        initialField = some true ∨
      doesPieceFit { mkPiece .Line 4 13 0 with posY := (mkPiece .Line 4 13 0).posY + 1 }
        initialField = some false) :=
  (one_step_index_safety (mkPiece .Line 4 13 0) initialField (by decide) initialField_length
    initialField_borderNonEmpty line_on_floor_fits
    (fun i j hi hj _ => by simp only [mkPiece_eq]; omega)).2.2.2.1

/-! ## Locking a fitting pose -/

theorem nonEmptyCount_set (c : Char) (hc : c ≠ emptyCell) :
    ∀ (f : List Char) (k : Nat), k < f.length → cellAt f k = emptyCell →
      nonEmptyCount (f.set k c) = nonEmptyCount f + 1 := by
  intro f
  induction f with
  | nil => intro k hk; simp at hk
  | cons a rest ih =>
    intro k hk hcell
    cases k with
    | zero =>
      have ha : a = emptyCell := by simpa [cellAt] using hcell
      simp [nonEmptyCount, List.filter_cons, ha, hc]
    | succ m =>
      have hm : m < rest.length := by simpa using hk
      have hcell2 : cellAt rest m = emptyCell := by simpa [cellAt] using hcell
      have := ih m hm hcell2
      simp only [nonEmptyCount, List.set_cons_succ, List.filter_cons] at this ⊢
      by_cases hae : (a != emptyCell) = true
      · simp only [hae, if_true, List.length_cons]; omega
      · simp only [hae, if_false]; exact this

theorem kindLetter_ne_empty (kind : TetrominoType) : kindLetter kind ≠ emptyCell := by
  cases kind <;> decide

theorem fieldIndex_injective (x y : Int) (a b : Nat × Nat) (ha : a.1 < 4) (hb : b.1 < 4)
    (h : fieldIndex (x + (a.1 : Int)) (y + (a.2 : Int))
      = fieldIndex (x + (b.1 : Int)) (y + (b.2 : Int))) : a = b := by
  obtain ⟨a1, a2⟩ := a
  obtain ⟨b1, b2⟩ := b
  simp only [fieldIndex, fieldWidth] at h
  simp only at ha hb
  have h1 : a1 = b1 := by omega
  have h2 : a2 = b2 := by omega
  rw [h1, h2]

/-- The lock loop over distinct cells whose occupied members lie over Empty cells adds
one non-Empty cell per occupied member. -/
theorem cementifyFrom_count (t : ActiveTetromino) (hshape : t.shape.length = 16)
    (cells : List (Nat × Nat)) (hcells : ∀ c ∈ cells, c.1 < 4 ∧ c.2 < 4)
    (hnd : cells.Nodup) :
    ∀ field written : List Char,
      (∀ c ∈ cells, maskCell t.shape c.1 c.2 ≠ emptyTetrominoPixel →
        0 ≤ fieldIndex (t.posX + (c.1 : Int)) (t.posY + (c.2 : Int)) ∧
        fieldIndex (t.posX + (c.1 : Int)) (t.posY + (c.2 : Int)) < field.length ∧
        cellAt field (fieldIndex (t.posX + (c.1 : Int)) (t.posY + (c.2 : Int))).toNat
          = emptyCell) →
      cementifyFrom t cells field = some written →
      nonEmptyCount written = nonEmptyCount field +
        (cells.filter fun c => maskCell t.shape c.1 c.2 != emptyTetrominoPixel).length := by
  induction cells with
  | nil =>
    intro field written _ h
    simp only [cementifyFrom, Option.some.injEq] at h
    rw [← h]; rfl
  | cons a rest ih =>
    obtain ⟨i, j⟩ := a
    intro field written hidx h
    have hij := hcells (i, j) (List.mem_cons_self _ _)
    simp only at hij
    have hread : t.shape[j * tetrominoWidth + i]? = some (maskCell t.shape i j) :=
      getElem?_eq_some_maskCell _ _ _ (by omega)
    have hrest : ∀ c ∈ rest, c.1 < 4 ∧ c.2 < 4 :=
      fun c hc => hcells c (List.mem_cons_of_mem _ hc)
    rw [List.nodup_cons] at hnd
    by_cases hocc : maskCell t.shape i j = emptyTetrominoPixel
    · simp only [cementifyFrom, hread, if_pos hocc] at h
      have := ih hrest hnd.2 field written
        (fun c hc => hidx c (List.mem_cons_of_mem _ hc)) h
      rw [this, List.filter_cons_of_neg (by simp [hocc])]
    · obtain ⟨h0, h1, hempty⟩ := hidx (i, j) (List.mem_cons_self _ _) hocc
      simp only at h0 h1 hempty
      have hset := wstringSet_inRange field _ (kindLetter t.type) h0 h1
      simp only [cementifyFrom, hread, if_neg hocc, hset] at h
      have hk : (fieldIndex (t.posX + (i : Int)) (t.posY + (j : Int))).toNat
          < field.length := by omega
      have hstep := nonEmptyCount_set (kindLetter t.type) (kindLetter_ne_empty _) field _
        hk hempty
      have := ih hrest hnd.2 _ written
        (fun c hc hco => by
          obtain ⟨c0, c1, cE⟩ := hidx c (List.mem_cons_of_mem _ hc) hco
          refine ⟨c0, by simpa using c1, ?_⟩
          rw [cellAt_set, if_neg]
          · exact cE
          · rintro ⟨e, _⟩
            have hne : c ≠ (i, j) := fun e2 => hnd.1 (e2 ▸ hc)
            apply hne
            apply fieldIndex_injective t.posX t.posY c (i, j) (hrest c hc).1 hij.1
            simp only
            omega)
        h
      rw [this, hstep, List.filter_cons_of_pos (by simp [hocc]), List.length_cons]
      omega

theorem occupiedCells_closed : ∀ kind : TetrominoType, ∀ r ∈ [(0 : Int), 1, 2, 3],
    (cementOrder.filter fun c =>
      maskCell (shapeOf kind r) c.1 c.2 != emptyTetrominoPixel).length = 4 := by
  intro kind
  cases kind <;> decide!

theorem cementOrder_nodup : cementOrder.Nodup := by decide

theorem mem_occupiedIndices (t : ActiveTetromino) (k : Int) :
    k ∈ occupiedIndices t ↔
      ∃ c ∈ cementOrder, maskCell t.shape c.1 c.2 ≠ emptyTetrominoPixel ∧
        fieldIndex (t.posX + (c.1 : Int)) (t.posY + (c.2 : Int)) = k := by
  simp only [occupiedIndices, occupiedCells, List.mem_map, List.mem_filter, bne_iff_ne]
  constructor
  · rintro ⟨c, ⟨hc, hocc⟩, e⟩; exact ⟨c, hc, hocc, e⟩
  · rintro ⟨c, hc, hocc, e⟩; exact ⟨c, ⟨hc, hocc⟩, e⟩

/-- C20: locking a fitting pose only fills empty cells.  For a field of 216 cells and a
piece with the mask of `getShape` (rotation index 0..3) at a pose with `posY >= 0` for
which `doesPieceFit` returns true: `cementify` completes; the occupied mask cells have
4 pairwise different field indices, all inside the field; each of these cells was Empty
and holds the kind letter afterwards; a cell changes if and only if it is one of these
4, so no non-Empty cell (Border, Locked or CompletedMarker) is overwritten; and the
number of non-Empty cells grows by exactly 4. -/
theorem cementify_fills_only_empty_cells (t : ActiveTetromino) (field : List Char)
    (hlen : field.length = fieldPixels) (hshape : t.shape = getShape t)
    (hrot : 0 ≤ t.rotation ∧ t.rotation ≤ 3) (hpos : 0 ≤ t.posY)
    (hfit : doesPieceFit t field = some true) :
    ∃ written, cementify t field = some written ∧ written.length = fieldPixels ∧
      (occupiedIndices t).length = 4 ∧ (occupiedIndices t).Nodup ∧
      (∀ k ∈ occupiedIndices t, 0 ≤ k ∧ k < (fieldPixels : Int) ∧
        cellAt field k.toNat = emptyCell ∧ cellAt written k.toNat = kindLetter t.type) ∧
      (∀ n : Nat, cellAt written n ≠ cellAt field n ↔ (n : Int) ∈ occupiedIndices t) ∧
      (∀ n : Nat, cellAt field n ≠ emptyCell → cellAt written n = cellAt field n) ∧
      nonEmptyCount written = nonEmptyCount field + 4 := by
  have hs : t.shape = shapeOf t.type t.rotation := hshape.trans (getShape_eq_shapeOf t)
  have hmem : t.rotation ∈ [(0 : Int), 1, 2, 3] := by
    rcases rotation_cases t.rotation hrot.1 hrot.2 with h | h | h | h <;> simp [h]
  have hshape16 : t.shape.length = 16 := by
    rw [hs]; exact (occupiedCount_closed t.type t.rotation hmem).2.2.1
  have hlen216 : field.length = 216 := hlen
  have hE : ∀ c ∈ cementOrder, maskCell t.shape c.1 c.2 ≠ emptyTetrominoPixel →
      0 ≤ fieldIndex (t.posX + (c.1 : Int)) (t.posY + (c.2 : Int)) ∧
      fieldIndex (t.posX + (c.1 : Int)) (t.posY + (c.2 : Int)) < field.length ∧
      cellAt field (fieldIndex (t.posX + (c.1 : Int)) (t.posY + (c.2 : Int))).toNat
        = emptyCell := by
    intro c hc hocc
    have hc4 := (mem_cementOrder c).1 hc
    have hread := doesPieceFitFrom_true t field hshape16.ge fitOrder
      (fun d hd => (mem_fitOrder d).1 hd) hfit c ((mem_fitOrder c).2 hc4)
      ⟨hocc, by omega⟩
    exact wstringAt_eq_some _ _ _ hread
  obtain ⟨w, hw, hwlen, hwcell⟩ := cementifyFrom_spec t hshape16.ge cementOrder
    (fun c hc => (mem_cementOrder c).1 hc) field
    (fun c hc hocc => ⟨(hE c hc hocc).1, (hE c hc hocc).2.1⟩)
  have hcount := cementifyFrom_count t hshape16 cementOrder
    (fun c hc => (mem_cementOrder c).1 hc) cementOrder_nodup field w hE hw
  have hfour : (cementOrder.filter fun c =>
      maskCell t.shape c.1 c.2 != emptyTetrominoPixel).length = 4 := by
    rw [hs]; exact occupiedCells_closed t.type t.rotation hmem
  refine ⟨w, hw, by rw [hwlen]; exact hlen, ?_, ?_, ?_, ?_, ?_, ?_⟩
  · simp only [occupiedIndices, occupiedCells, List.length_map]
    exact hfour
  · simp only [occupiedIndices, occupiedCells]
    apply List.Nodup.map_on
    · intro a ha b hb e
      have ha4 := (mem_cementOrder a).1 (List.mem_filter.1 ha).1
      have hb4 := (mem_cementOrder b).1 (List.mem_filter.1 hb).1
      exact fieldIndex_injective t.posX t.posY a b ha4.1 hb4.1 e
    · exact cementOrder_nodup.filter _
  · intro k hk
    obtain ⟨c, hc, hocc, e⟩ := (mem_occupiedIndices t k).1 hk
    obtain ⟨h0, h1, hcell⟩ := hE c hc hocc
    rw [e] at h0 h1 hcell
    refine ⟨h0, by rw [hlen216] at h1; exact h1, hcell, ?_⟩
    rw [hwcell, if_pos]
    refine ⟨c, hc, hocc, ?_⟩
    rw [e]; omega
  · intro n
    rw [hwcell, mem_occupiedIndices]
    by_cases hex : ∃ c ∈ cementOrder, maskCell t.shape c.1 c.2 ≠ emptyTetrominoPixel ∧
        fieldIndex (t.posX + (c.1 : Int)) (t.posY + (c.2 : Int)) = (n : Int)
    · rw [if_pos hex]
      refine ⟨fun _ => hex, fun _ => ?_⟩
      obtain ⟨c, hc, hocc, e⟩ := hex
      have hcell := (hE c hc hocc).2.2
      rw [e] at hcell
      simp only [Int.toNat_ofNat] at hcell
      rw [hcell]
      exact kindLetter_ne_empty _
    · rw [if_neg hex]
      exact ⟨fun h => absurd rfl h, fun h => absurd h hex⟩
  · intro n hne
    rw [hwcell, if_neg]
    rintro ⟨c, hc, hocc, e⟩
    have hcell := (hE c hc hocc).2.2
    rw [e] at hcell
    simp only [Int.toNat_ofNat] at hcell
    exact hne hcell
  · rw [hcount, hfour]

theorem cementify_fills_only_empty_cells_witness :
    ∃ written, cementify (mkPiece .Line 4 13 0) initialField = some written ∧
      written.length = fieldPixels ∧
      (occupiedIndices (mkPiece .Line 4 13 0)).length = 4 ∧
      (occupiedIndices (mkPiece .Line 4 13 0)).Nodup ∧
      (∀ k ∈ occupiedIndices (mkPiece .Line 4 13 0), 0 ≤ k ∧ k < (fieldPixels : Int) ∧
        cellAt initialField k.toNat = emptyCell ∧
        cellAt written k.toNat = kindLetter (mkPiece .Line 4 13 0).type) ∧
      (∀ n : Nat, cellAt written n ≠ cellAt initialField n ↔
        (n : Int) ∈ occupiedIndices (mkPiece .Line 4 13 0)) ∧
      (∀ n : Nat, cellAt initialField n ≠ emptyCell →
        cellAt written n = cellAt initialField n) ∧
      nonEmptyCount written = nonEmptyCount initialField + 4 :=
  cementify_fills_only_empty_cells (mkPiece .Line 4 13 0) initialField initialField_length
    rfl (by decide) (by decide) line_on_floor_fits

/-! ## A run that completes the top row -/

theorem topRowStage_zero : topRowStage 0 = initialGame := by decide!

theorem topRowStage_twenty : topRowStage 20 = topRowBefore := by decide!

theorem topRow_piece_0 :
    runTicks (topRowStage 0) (topRowPieceKeys 0) = .running (topRowStage 1) := by decide!

theorem topRow_piece_1 :
    runTicks (topRowStage 1) (topRowPieceKeys 1) = .running (topRowStage 2) := by decide!

theorem topRow_piece_2 :
    runTicks (topRowStage 2) (topRowPieceKeys 2) = .running (topRowStage 3) := by decide!

theorem topRow_piece_3 :
    runTicks (topRowStage 3) (topRowPieceKeys 3) = .running (topRowStage 4) := by decide!

theorem topRow_piece_4 :
    runTicks (topRowStage 4) (topRowPieceKeys 4) = .running (topRowStage 5) := by decide!

theorem topRow_piece_5 :
    runTicks (topRowStage 5) (topRowPieceKeys 5) = .running (topRowStage 6) := by decide!

theorem topRow_piece_6 :
    runTicks (topRowStage 6) (topRowPieceKeys 6) = .running (topRowStage 7) := by decide!

theorem topRow_piece_7 :
    runTicks (topRowStage 7) (topRowPieceKeys 7) = .running (topRowStage 8) := by decide!

theorem topRow_piece_8 :
    runTicks (topRowStage 8) (topRowPieceKeys 8) = .running (topRowStage 9) := by decide!

theorem topRow_piece_9 :
    runTicks (topRowStage 9) (topRowPieceKeys 9) = .running (topRowStage 10) := by decide!

theorem topRow_piece_10 :
    runTicks (topRowStage 10) (topRowPieceKeys 10) = .running (topRowStage 11) := by decide!

theorem topRow_piece_11 :
    runTicks (topRowStage 11) (topRowPieceKeys 11) = .running (topRowStage 12) := by decide!

theorem topRow_piece_12 :
    runTicks (topRowStage 12) (topRowPieceKeys 12) = .running (topRowStage 13) := by decide!

theorem topRow_piece_13 :
    runTicks (topRowStage 13) (topRowPieceKeys 13) = .running (topRowStage 14) := by decide!

theorem topRow_piece_14 :
    runTicks (topRowStage 14) (topRowPieceKeys 14) = .running (topRowStage 15) := by decide!

theorem topRow_piece_15 :
    runTicks (topRowStage 15) (topRowPieceKeys 15) = .running (topRowStage 16) := by decide!

theorem topRow_piece_16 :
    runTicks (topRowStage 16) (topRowPieceKeys 16) = .running (topRowStage 17) := by decide!

theorem topRow_piece_17 :
    runTicks (topRowStage 17) (topRowPieceKeys 17) = .running (topRowStage 18) := by decide!

theorem topRow_piece_18 :
    runTicks (topRowStage 18) (topRowPieceKeys 18) = .running (topRowStage 19) := by decide!

theorem topRow_piece_19 :
    runTicks (topRowStage 19) (topRowPieceKeys 19) = .running (topRowStage 20) := by decide!

theorem topRow_pieces (k : Nat) (hk : k < 20) :
    runTicks (topRowStage k) (topRowPieceKeys k) = .running (topRowStage (k + 1)) := by
  interval_cases k
  · exact topRow_piece_0
  · exact topRow_piece_1
  · exact topRow_piece_2
  · exact topRow_piece_3
  · exact topRow_piece_4
  · exact topRow_piece_5
  · exact topRow_piece_6
  · exact topRow_piece_7
  · exact topRow_piece_8
  · exact topRow_piece_9
  · exact topRow_piece_10
  · exact topRow_piece_11
  · exact topRow_piece_12
  · exact topRow_piece_13
  · exact topRow_piece_14
  · exact topRow_piece_15
  · exact topRow_piece_16
  · exact topRow_piece_17
  · exact topRow_piece_18
  · exact topRow_piece_19

theorem reachable_topRowStage (k : Nat) (hk : k ≤ 20) : Reachable (topRowStage k) := by
  induction k with
  | zero => rw [topRowStage_zero]; exact Reachable.start
  | succ n ih =>
    exact reachable_runTicks _ _ _ (ih (by omega)) (topRow_pieces n (by omega))

theorem topRow_last_ticks :
    runTicks topRowBefore (List.replicate 3 (dropKeys, 0)) = .running topRowAfter := by
  decide!

theorem topRow_lock :
    cementify (mkPiece .Line 4 0 0) topRowBefore.field = some topRowCemented ∧
    BorderNonEmpty topRowCemented ∧
    (∀ n, n < fieldPixels → cellAt topRowCemented n ≠ completedLineCell) ∧
    (scanCompletedRows topRowCemented).1 = [0, 1, 2] ∧
    topRowAfter.field
      = shiftRowsDown (scanCompletedRows topRowCemented).2
          (scanCompletedRows topRowCemented).1 ∧
    (∀ y ∈ [0, 1, 2], ∀ x ∈ List.range' 1 10,
      cellAt topRowAfter.field (y * fieldWidth + x) = completedLineCell) := by
  decide!

/-- C17: evaluation at completed rows that include row 0.  A run of 171 ticks from the
initial state (twenty pieces locked one after the other by the ticks of
`topRowPieceKeys`, then a Line piece dropped into column 6 in three ticks) ends with a
lock after which the field has non-Empty borders and no `=`; the
scan reports rows 0, 1 and 2 and marks them; and after the shift loop the thirty
interior cells of rows 0..2 still hold `=`.  The loop for index 0 does nothing
(`for (y = 0; y > 0; --y)`) and the loops for 1 and 2 copy the marked row 0 downwards.
The same on the plain field `topRowFull`: only row 0 is full, and its ten `=` stay. -/
theorem completed_top_row_keeps_marker :
    topRowStage 0 = initialGame ∧
    (∀ k, k < 20 →
      runTicks (topRowStage k) (topRowPieceKeys k) = .running (topRowStage (k + 1))) ∧
    topRowStage 20 = topRowBefore ∧
    runTicks topRowBefore (List.replicate 3 (dropKeys, 0)) = .running topRowAfter ∧
    Reachable topRowAfter ∧
    cementify (mkPiece .Line 4 0 0) topRowBefore.field = some topRowCemented ∧
    BorderNonEmpty topRowCemented ∧
    (∀ n, n < fieldPixels → cellAt topRowCemented n ≠ completedLineCell) ∧
    (scanCompletedRows topRowCemented).1 = [0, 1, 2] ∧
    topRowAfter.field
      = shiftRowsDown (scanCompletedRows topRowCemented).2
          (scanCompletedRows topRowCemented).1 ∧
    (∀ y ∈ [0, 1, 2], ∀ x ∈ List.range' 1 10,
      cellAt topRowAfter.field (y * fieldWidth + x) = completedLineCell) ∧
    BorderNonEmpty topRowFull ∧
    (∀ n, n < fieldPixels → cellAt topRowFull n ≠ completedLineCell) ∧
    (scanCompletedRows topRowFull).1 = [0] ∧
    (∀ x ∈ List.range' 1 10,
      cellAt (shiftRowsDown (scanCompletedRows topRowFull).2
        (scanCompletedRows topRowFull).1) (0 * fieldWidth + x) = completedLineCell) :=
  ⟨topRowStage_zero, topRow_pieces, topRowStage_twenty, topRow_last_ticks,
    reachable_runTicks _ _ _ (topRowStage_twenty ▸ reachable_topRowStage 20 (by omega))
      topRow_last_ticks,
    topRow_lock.1, topRow_lock.2.1, topRow_lock.2.2.1, topRow_lock.2.2.2.1,
    topRow_lock.2.2.2.2.1, topRow_lock.2.2.2.2.2,
    topRowFull_keeps_marker.2.1, topRowFull_keeps_marker.2.2.1,
    topRowFull_keeps_marker.2.2.2.1, topRowFull_keeps_marker.2.2.2.2.2⟩

end Tetris
